import Mathlib

/-!
# Go-Splunk-HTTP: `splunk.HTTPCollector.Log`

A shallow embedding of `src/splunk/splunk.go`.

* A Go `string` / `[]byte` is a list of byte values (`Nat`, each below 256).
* The calls that leave the package (`os.Hostname`, `time.Now().Unix`, `json.Marshal`,
  URL parsing inside `http.NewRequest`, `client.Do`) are fields of a record `Lib` that `Log`
  receives, so every control-flow branch of `Log` can be exercised.
* `Marshal`, further down, is a byte-level model of what `encoding/json` does to an `Event`.
-/

namespace Splunk

/-- A Go `string`: an immutable sequence of bytes. An element above 255, which no Go
string holds, is treated by every function below as a byte that is not part of a UTF-8
encoding. -/
abbrev GoString := List Nat

/-- The bytes of an ASCII string literal of the source. -/
def lit (s : String) : GoString := s.toList.map Char.toNat

/-- A Go `map[string]string`; `none` is the nil map, `some kvs` a map holding the
entries `kvs` (in a real map the keys are pairwise distinct). -/
abbrev GoMap := Option (List (GoString × GoString))

/-- Keys of a non-nil map are pairwise distinct. -/
def GoMap.WF : GoMap → Prop
  | none => True
  | some kvs => (kvs.map Prod.fst).Nodup

/-- Go `error` values that can reach `Log`: `errorString` is what `errors.New` builds,
`external` stands for an error value produced inside a library call. -/
inductive GoError where
  | errorString (s : GoString)
  | external (origin : String) (msg : GoString)
  deriving DecidableEq, Repr

/-- The `Error()` method. -/
def GoError.Error : GoError → GoString
  | .errorString s => s
  | .external _ msg => msg

/-- Go `errors.New`. -/
def errorsNew (text : GoString) : GoError := .errorString text

/-- The struct `Event` (splunk.go, lines 14-21). -/
structure Event where
  Time : Int
  Host : GoString
  Source : GoString
  SourceType : GoString
  Index : GoString
  Event : GoMap
  deriving DecidableEq, Repr

/-- The struct `HTTPCollector` (splunk.go, lines 25-31). -/
structure HTTPCollector where
  Url : GoString
  Token : GoString
  Source : GoString
  SourceType : GoString
  Index : GoString
  deriving DecidableEq, Repr

/-- Go `http.Header`: header name to the list of its values. -/
abbrev Header := List (GoString × List GoString)

/-- The parts of `*http.Request` that `Log` sets. -/
structure Request where
  Method : GoString
  URL : GoString
  Header : Header
  Body : List Nat
  deriving DecidableEq, Repr

/-- An `io.Reader` for a response body: the bytes it delivers, and the error that ends
the stream (`none` for a clean `io.EOF`). -/
structure BodyReader where
  data : List Nat
  err : Option GoError
  deriving DecidableEq, Repr

/-- The parts of `*http.Response` that `Log` reads. -/
structure Response where
  StatusCode : Int
  Body : BodyReader
  deriving DecidableEq, Repr

/-- The library calls `Log` makes, as seen from the package. -/
structure Lib where
  /-- Result pair of `os.Hostname()`. -/
  Hostname : GoString × Option GoError
  /-- Result of `time.Now().Unix()`. -/
  Now : Int
  /-- The function `json.Marshal`, at type `Event`. -/
  Marshal : Event → Except GoError (List Nat)
  /-- The URL parsing step of `http.NewRequest`: `some e` when the raw URL is rejected. -/
  ParseURL : GoString → Option GoError
  /-- The method `(*http.Client).Do` of the client `Log` builds. -/
  Do : Request → Except GoError Response

/-- Token bytes of RFC 7230 (`httpguts.IsTokenRune`, `textproto.validHeaderFieldByte`). -/
def isTokenByte (c : Nat) : Bool :=
  (48 ≤ c && c ≤ 57) || (65 ≤ c && c ≤ 90) || (97 ≤ c && c ≤ 122) ||
  c = 33 || c = 35 || c = 36 || c = 37 || c = 38 || c = 39 || c = 42 || c = 43 ||
  c = 45 || c = 46 || c = 94 || c = 95 || c = 96 || c = 124 || c = 126

/-- The letter-case pass of `textproto.canonicalMIMEHeaderKey`: upper-case the first
letter and every letter after a hyphen, lower-case the others. -/
def canonicalCase : Bool → List Nat → List Nat
  | _, [] => []
  | upper, c :: cs =>
    let c1 := if upper && 97 ≤ c && c ≤ 122 then c - 32
              else if !upper && 65 ≤ c && c ≤ 90 then c + 32 else c
    c1 :: canonicalCase (c1 = 45) cs

/-- Go `textproto.CanonicalMIMEHeaderKey`: a key holding a non-token byte is returned
unchanged. -/
def CanonicalMIMEHeaderKey (s : GoString) : GoString :=
  if s.all isTokenByte then canonicalCase true s else s

/-- Go `Header.Add`: append `value` to the values stored under the canonical key. -/
def HeaderAdd (h : Header) (key value : GoString) : Header :=
  let k := CanonicalMIMEHeaderKey key
  match h.lookup k with
  | some vs => h.map (fun kv => if kv.1 = k then (kv.1, vs ++ [value]) else kv)
  | none => h ++ [(k, [value])]

/-- Go `Header.Values`. -/
def HeaderValues (h : Header) (key : GoString) : List GoString :=
  (h.lookup (CanonicalMIMEHeaderKey key)).getD []

/-- Go `http.NewRequest`: `(nil, err)` for an invalid method or an unparsable URL,
otherwise a request with an empty header. -/
def NewRequest (lib : Lib) (method url : GoString) (body : List Nat) :
    Option Request × Option GoError :=
  if method.isEmpty || !method.all isTokenByte then
    (none, some (.external "net/http" (lit "net/http: invalid method")))
  else
    match lib.ParseURL url with
    | some e => (none, some e)
    | none => (some { Method := method, URL := url, Header := [], Body := body }, none)

/-- Go `(*bytes.Buffer).ReadFrom` followed by `String()`: the bytes read until the reader
stops, and the error (if any) that stopped it. -/
def ReadFrom (r : BodyReader) : GoString × Option GoError := (r.data, r.err)

/-- How a call ends. -/
inductive Outcome where
  /-- The call returns the value `err` (`none` is the nil error). -/
  | returned (err : Option GoError)
  /-- The call panics with a nil pointer dereference. -/
  | panicked
  deriving DecidableEq, Repr

/-- An execution of `Log`: how it ends and the requests it handed to `client.Do`, in order. -/
structure Run where
  outcome : Outcome
  sent : List Request
  deriving DecidableEq, Repr

/-- The literal of lines 41-48: the `Event` that `Log` builds. -/
def HTTPCollector.splunklog (lib : Lib) (sl : HTTPCollector) (event : GoMap) : Event :=
  let hostname := lib.Hostname.1
  { Time := lib.Now
    Host := hostname
    Source := sl.Source
    SourceType := sl.SourceType
    Index := sl.Index
    Event := event }

/-- The `Event` of lines 41-48 with the empty string for the host name. -/
def HTTPCollector.emptyHostEvent (lib : Lib) (sl : HTTPCollector) (event : GoMap) : Event :=
  { Time := lib.Now, Host := [], Source := sl.Source, SourceType := sl.SourceType,
    Index := sl.Index, Event := event }

/-- Lines 61-62: the two `req.Header.Add` calls. -/
def HTTPCollector.addHeaders (sl : HTTPCollector) (req : Request) : Request :=
  let h1 := HeaderAdd req.Header (lit "Content-Type") (lit "application/json")
  let h2 := HeaderAdd h1 (lit "Authorization") (lit "Splunk " ++ sl.Token)
  { req with Header := h2 }

/-- Lines 73-83: the error `Log` returns for a response. -/
def statusError (res : Response) : Option GoError :=
  if res.StatusCode = 200 then none
  else
    let responseBody := (ReadFrom res.Body).1
    some (errorsNew responseBody)

/-- The method `(*HTTPCollector).Log` (splunk.go, lines 38-84). -/
def HTTPCollector.Log (lib : Lib) (sl : HTTPCollector) (event : GoMap) : Run :=
  let splunklog := sl.splunklog lib event
  match lib.Marshal splunklog with
  | .error err => ⟨.returned (some err), []⟩
  | .ok b =>
    let url := sl.Url
    -- line 60: the error result of NewRequest is stored and never tested
    match (NewRequest lib (lit "POST") url b).1 with
    | none => ⟨.panicked, []⟩  -- line 61: req.Header on a nil *Request
    | some req0 =>
      let req := sl.addHeaders req0
      match lib.Do req with
      | .error err => ⟨.returned (some err), [req]⟩
      | .ok res => ⟨.returned (statusError res), [req]⟩

/-! ## `unicode/utf8` -/

/-- Go `utf8.RuneError`, U+FFFD. -/
def RuneError : Nat := 65533

/-- Go `utf8.DecodeRuneInString` / `utf8.DecodeRune`: the rune at the front of `s` and its
width in bytes; `(RuneError, 1)` for an invalid encoding, `(RuneError, 0)` for empty input.
Masks and shifts are written arithmetically (`s0 & 0x1F` is `s0 % 32`, `x << 6 | y` is
`x * 64 + y` for `y < 64`). The table `first` and `acceptRanges` are unfolded into `sz`,
`lo`, `hi`. -/
def DecodeRune (s : List Nat) : Nat × Nat :=
  match s with
  | [] => (RuneError, 0)
  | s0 :: t =>
    if s0 < 128 then (s0, 1)
    else if s0 < 194 ∨ 245 ≤ s0 then (RuneError, 1)
    else
      let sz := if s0 < 224 then 2 else if s0 < 240 then 3 else 4
      let lo := if s0 = 224 then 160 else if s0 = 240 then 144 else 128
      let hi := if s0 = 237 then 159 else if s0 = 244 then 143 else 191
      if t.length + 1 < sz then (RuneError, 1)
      else
        match t with
        | [] => (RuneError, 1)
        | s1 :: t1 =>
          if s1 < lo ∨ hi < s1 then (RuneError, 1)
          else if sz ≤ 2 then ((s0 % 32) * 64 + s1 % 64, 2)
          else
            match t1 with
            | [] => (RuneError, 1)
            | s2 :: t2 =>
              if s2 < 128 ∨ 191 < s2 then (RuneError, 1)
              else if sz ≤ 3 then ((s0 % 16) * 4096 + (s1 % 64) * 64 + s2 % 64, 3)
              else
                match t2 with
                | [] => (RuneError, 1)
                | s3 :: _ =>
                  if s3 < 128 ∨ 191 < s3 then (RuneError, 1)
                  else ((s0 % 8) * 262144 + (s1 % 64) * 4096 + (s2 % 64) * 64 + s3 % 64, 4)

/-- Go `utf8.AppendRune` / `utf8.EncodeRune` on a non-negative rune value: surrogates and
values above U+10FFFF are written as U+FFFD. -/
def EncodeRune (r : Nat) : List Nat :=
  if r ≤ 127 then [r]
  else if r ≤ 2047 then [192 + r / 64, 128 + r % 64]
  else if 1114111 < r ∨ (55296 ≤ r ∧ r ≤ 57343) then [239, 191, 189]
  else if r ≤ 65535 then [224 + r / 4096, 128 + (r / 64) % 64, 128 + r % 64]
  else [240 + r / 262144, 128 + (r / 4096) % 64, 128 + (r / 64) % 64, 128 + r % 64]

/-- Loop of Go `utf8.ValidString`; `fuel` bounds the number of runes. -/
def validLoop : Nat → List Nat → Bool
  | 0, s => s.isEmpty
  | _, [] => true
  | fuel + 1, b :: rest =>
    let (c, size) := DecodeRune (b :: rest)
    if c = RuneError ∧ size = 1 then false else validLoop fuel (rest.drop (size - 1))

/-- Go `utf8.ValidString`. -/
def ValidString (s : GoString) : Bool := validLoop s.length s

/-! ## `encoding/json`, encoding side -/

/-- The table `hex = "0123456789abcdef"`. -/
def hexDigit (n : Nat) : Nat := if n < 10 then 48 + n else 87 + n

/-- The table `htmlSafeSet`: ASCII bytes written without escaping when `escapeHTML` is on
(everything from space up, except the quote, the backslash, and the characters
less-than, greater-than and ampersand). -/
def htmlSafe (b : Nat) : Bool :=
  32 ≤ b && b < 128 && b != 34 && b != 92 && b != 60 && b != 62 && b != 38

/-- The escape `appendString` writes for an ASCII byte outside `htmlSafeSet` (the short
forms for backspace and form feed are those of Go 1.22 and later; earlier releases write
the six-byte form for these two bytes, which decodes to the same byte). -/
def escapeByte (b : Nat) : List Nat :=
  if b = 92 ∨ b = 34 then [92, b]
  else if b = 8 then [92, 98]
  else if b = 12 then [92, 102]
  else if b = 10 then [92, 110]
  else if b = 13 then [92, 114]
  else if b = 9 then [92, 116]
  else [92, 117, 48, 48, hexDigit (b / 16), hexDigit (b % 16)]

/-- The loop of `appendString` (with `escapeHTML` set, as `json.Marshal` sets it): the
bytes written for `s` between the two quotes. Runs of unescaped bytes, which the source
copies in one piece from `start`, are emitted as they are met. `fuel` bounds the
iterations. -/
def appendStringLoop : Nat → List Nat → List Nat
  | 0, _ => []
  | _, [] => []
  | fuel + 1, b :: rest =>
    if b < 128 then
      (if htmlSafe b then [b] else escapeByte b) ++ appendStringLoop fuel rest
    else
      let (c, size) := DecodeRune ((b :: rest).take 4)
      if c = RuneError ∧ size = 1 then
        [92, 117, 102, 102, 102, 100] ++ appendStringLoop fuel rest
      else if c = 8232 ∨ c = 8233 then
        [92, 117, 50, 48, 50, hexDigit (c % 16)] ++ appendStringLoop fuel (rest.drop (size - 1))
      else
        (b :: rest).take size ++ appendStringLoop fuel (rest.drop (size - 1))

/-- The function `appendString` of `encoding/json`: a quoted JSON string. -/
def appendString (s : GoString) : List Nat :=
  34 :: (appendStringLoop s.length s ++ [34])

/-- Decimal digits of `n`, most significant first, in front of `acc`. -/
def digitsLoop : Nat → Nat → List Nat → List Nat
  | 0, _, acc => acc
  | fuel + 1, n, acc =>
    if n < 10 then (48 + n) :: acc else digitsLoop fuel (n / 10) ((48 + n % 10) :: acc)

/-- Go `strconv.FormatUint(n, 10)`. -/
def formatUint (n : Nat) : List Nat := digitsLoop (n + 1) n []

/-- Go `strconv.AppendInt(nil, i, 10)`. -/
def formatInt (i : Int) : List Nat :=
  if i < 0 then 45 :: formatUint (-i).toNat else formatUint i.toNat

/-- Go `strings.Compare(a, b) <= 0`: byte-wise lexicographic order. -/
def bytesLE : List Nat → List Nat → Bool
  | [], _ => true
  | _ :: _, [] => false
  | a :: as, b :: bs => a < b || (a = b && bytesLE as bs)

/-- The order `mapEncoder` sorts the entries in. -/
def keyLE (x y : GoString × GoString) : Prop := bytesLE x.1 y.1 = true

instance : DecidableRel keyLE := fun x y => by unfold keyLE; exact inferInstance

/-- The entries of a map, sorted by key. -/
def sortEntries (kvs : List (GoString × GoString)) : List (GoString × GoString) :=
  List.insertionSort keyLE kvs

/-- The loop of `mapEncoder.encode` over the sorted entries: a comma before every entry
but the first (`i > 0`), then the key, a colon, the value. -/
def encodeEntries : Bool → List (GoString × GoString) → List Nat
  | _, [] => []
  | first, kv :: kvs =>
    (if first then [] else [44]) ++
      (appendString kv.1 ++ 58 :: (appendString kv.2 ++ encodeEntries false kvs))

/-- The encoder `mapEncoder.encode` at `map[string]string`. -/
def encodeMap : GoMap → List Nat
  | none => lit "null"
  | some kvs => 123 :: (encodeEntries true (sortEntries kvs) ++ [125])

/-- The encoder `structEncoder.encode` at `Event`: the fields in declaration order, each
after its pre-computed name `nameEscHTML`. -/
def encodeEvent (v : Event) : List Nat :=
  123 :: (appendString (lit "time") ++ 58 :: formatInt v.Time ++
  44 :: (appendString (lit "host") ++ 58 :: appendString v.Host ++
  44 :: (appendString (lit "source") ++ 58 :: appendString v.Source ++
  44 :: (appendString (lit "sourcetype") ++ 58 :: appendString v.SourceType ++
  44 :: (appendString (lit "index") ++ 58 :: appendString v.Index ++
  44 :: (appendString (lit "event") ++ 58 :: encodeMap v.Event ++ [125]))))))

/-- Go `json.Marshal` at type `Event`: none of the encoders involved has an error path. -/
def Marshal (v : Event) : Except GoError (List Nat) := .ok (encodeEvent v)

/-! ## A JSON decoder

A recursive-descent decoder for the JSON grammar (RFC 8259), with the string handling of
`encoding/json` (`unquoteBytes`): escapes are resolved, surrogate pairs combined, and raw
bytes coerced to well-formed UTF-8. -/

/-- A decoded JSON value; a number keeps its literal, as `json.Number` does. -/
inductive JSON where
  | null
  | bool (b : Bool)
  | num (lit : List Nat)
  | str (s : GoString)
  | arr (xs : List JSON)
  | obj (ms : List (GoString × JSON))

/-- JSON insignificant whitespace: space, tab, line feed, carriage return. -/
def isSpace (c : Nat) : Bool := c = 32 || c = 9 || c = 10 || c = 13

/-- Drop leading whitespace. -/
def skipSpace : List Nat → List Nat
  | [] => []
  | c :: cs => if isSpace c then skipSpace cs else c :: cs

/-- Value of a hexadecimal digit. -/
def hexVal (c : Nat) : Option Nat :=
  if 48 ≤ c ∧ c ≤ 57 then some (c - 48)
  else if 97 ≤ c ∧ c ≤ 102 then some (c - 87)
  else if 65 ≤ c ∧ c ≤ 70 then some (c - 55)
  else none

/-- The function `getu4`: the code unit of a `\\uXXXX` escape at the front of `s`. -/
def getu4 (s : List Nat) : Option Nat :=
  match s with
  | 92 :: 117 :: a :: b :: c :: d :: _ =>
    match hexVal a, hexVal b, hexVal c, hexVal d with
    | some a, some b, some c, some d => some (((a * 16 + b) * 16 + c) * 16 + d)
    | _, _, _, _ => none
  | _ => none

/-- Go `utf16.DecodeRune`: the code point of a surrogate pair, U+FFFD if it is not one. -/
def utf16DecodeRune (r1 r2 : Nat) : Nat :=
  if 55296 ≤ r1 ∧ r1 < 56320 ∧ 56320 ≤ r2 ∧ r2 < 57344 then
    (r1 - 55296) * 1024 + (r2 - 56320) + 65536
  else RuneError

/-- Prepend decoded bytes to the result of the rest of a string literal. -/
def consBytes (bs : List Nat) (r : Option (GoString × List Nat)) : Option (GoString × List Nat) :=
  match r with
  | none => none
  | some (s, rest) => some (bs ++ s, rest)

/-- The body of a string literal after its opening quote: the decoded string and the
input after the closing quote. `fuel` bounds the iterations. -/
def unquoteLoop : Nat → List Nat → Option (GoString × List Nat)
  | 0, _ => none
  | _, [] => none
  | fuel + 1, c :: rest =>
    if c = 34 then some ([], rest)
    else if c = 92 then
      match rest with
      | [] => none
      | e :: rest1 =>
        if e = 34 ∨ e = 92 ∨ e = 47 then consBytes [e] (unquoteLoop fuel rest1)
        else if e = 98 then consBytes [8] (unquoteLoop fuel rest1)
        else if e = 102 then consBytes [12] (unquoteLoop fuel rest1)
        else if e = 110 then consBytes [10] (unquoteLoop fuel rest1)
        else if e = 114 then consBytes [13] (unquoteLoop fuel rest1)
        else if e = 116 then consBytes [9] (unquoteLoop fuel rest1)
        else if e = 117 then
          match getu4 (c :: rest) with
          | none => none
          | some rr =>
            let rest2 := rest.drop 5
            if 55296 ≤ rr ∧ rr < 57344 then
              match getu4 rest2 with
              | none => consBytes (EncodeRune RuneError) (unquoteLoop fuel rest2)
              | some rr1 =>
                let dec := utf16DecodeRune rr rr1
                if dec ≠ RuneError then consBytes (EncodeRune dec) (unquoteLoop fuel (rest2.drop 6))
                else consBytes (EncodeRune RuneError) (unquoteLoop fuel rest2)
            else consBytes (EncodeRune rr) (unquoteLoop fuel rest2)
        else none
    else if c < 32 then none
    else if c < 128 then consBytes [c] (unquoteLoop fuel rest)
    else
      let (rr, size) := DecodeRune (c :: rest)
      consBytes (EncodeRune rr) (unquoteLoop fuel (rest.drop (size - 1)))

/-- A string literal after its opening quote. -/
def unquote (s : List Nat) : Option (GoString × List Nat) := unquoteLoop s.length s

/-- Decimal digit. -/
def isDigit (c : Nat) : Bool := 48 ≤ c && c ≤ 57

/-- A non-empty run of digits at the front of `s`. -/
def digits1 (s : List Nat) : Option (List Nat × List Nat) :=
  match s.span isDigit with
  | ([], _) => none
  | (ds, rest) => some (ds, rest)

/-- The integer part of a number literal: `0`, or a digit 1-9 followed by digits. -/
def scanInt (s : List Nat) : Option (List Nat × List Nat) :=
  match s with
  | [] => none
  | c :: rest =>
    if c = 48 then some ([48], rest)
    else if 49 ≤ c ∧ c ≤ 57 then
      let (ds, rest1) := rest.span isDigit
      some (c :: ds, rest1)
    else none

/-- The optional fraction of a number literal. -/
def scanFrac (s : List Nat) : Option (List Nat × List Nat) :=
  match s with
  | [] => some ([], s)
  | c :: rest =>
    if c = 46 then
      match digits1 rest with
      | none => none
      | some (ds, rest1) => some (46 :: ds, rest1)
    else some ([], s)

/-- The optional exponent of a number literal. -/
def scanExp (s : List Nat) : Option (List Nat × List Nat) :=
  match s with
  | [] => some ([], s)
  | c :: rest =>
    if c = 101 ∨ c = 69 then
      match rest with
      | [] => none
      | g :: rest1 =>
        if g = 43 ∨ g = 45 then
          match digits1 rest1 with
          | none => none
          | some (ds, rest2) => some (c :: g :: ds, rest2)
        else
          match digits1 rest with
          | none => none
          | some (ds, rest2) => some (c :: ds, rest2)
    else some ([], s)

/-- The optional minus sign of a number literal. -/
def scanSign (s : List Nat) : List Nat × List Nat :=
  match s with
  | [] => ([], s)
  | c :: rest => if c = 45 then ([45], rest) else ([], s)

/-- A number literal at the front of `s`: the literal and the input after it. -/
def scanNumber (s : List Nat) : Option (List Nat × List Nat) :=
  let (sign, s1) := scanSign s
  match scanInt s1 with
  | none => none
  | some (ip, s2) =>
    match scanFrac s2 with
    | none => none
    | some (fp, s3) =>
      match scanExp s3 with
      | none => none
      | some (ep, s4) => some (sign ++ ip ++ fp ++ ep, s4)

/-- If `s` starts with the word `w`, the input after it. -/
def stripWord (w : List Nat) (s : List Nat) : Option (List Nat) :=
  if s.take w.length = w then some (s.drop w.length) else none

mutual
/-- One JSON value at the front of the input (after optional whitespace), and the input
after it. `fuel` bounds the nesting and the number of members. -/
def parseValue : Nat → List Nat → Option (JSON × List Nat)
  | 0, _ => none
  | fuel + 1, s =>
    match skipSpace s with
    | [] => none
    | c :: rest =>
      if c = 123 then
        match skipSpace rest with
        | [] => none
        | d :: rest1 =>
          if d = 125 then some (.obj [], rest1)
          else
            match parseMembers fuel (d :: rest1) with
            | none => none
            | some (ms, rest2) => some (.obj ms, rest2)
      else if c = 91 then
        match skipSpace rest with
        | [] => none
        | d :: rest1 =>
          if d = 93 then some (.arr [], rest1)
          else
            match parseElements fuel (d :: rest1) with
            | none => none
            | some (xs, rest2) => some (.arr xs, rest2)
      else if c = 34 then
        match unquote rest with
        | none => none
        | some (str, rest1) => some (.str str, rest1)
      else if c = 116 then (stripWord (lit "true") (c :: rest)).map (fun r => (.bool true, r))
      else if c = 102 then (stripWord (lit "false") (c :: rest)).map (fun r => (.bool false, r))
      else if c = 110 then (stripWord (lit "null") (c :: rest)).map (fun r => (.null, r))
      else
        match scanNumber (c :: rest) with
        | none => none
        | some (l, rest1) => some (.num l, rest1)
/-- The members of a non-empty object, up to and including the closing brace. -/
def parseMembers : Nat → List Nat → Option (List (GoString × JSON) × List Nat)
  | 0, _ => none
  | fuel + 1, s =>
    match skipSpace s with
    | [] => none
    | q :: r =>
      if q = 34 then
        match unquote r with
        | none => none
        | some (k, r1) =>
          match skipSpace r1 with
          | [] => none
          | colon :: r2 =>
            if colon = 58 then
              match parseValue fuel r2 with
              | none => none
              | some (v, r3) =>
                match skipSpace r3 with
                | [] => none
                | sep :: r4 =>
                  if sep = 44 then
                    match parseMembers fuel r4 with
                    | none => none
                    | some (ms, r5) => some ((k, v) :: ms, r5)
                  else if sep = 125 then some ([(k, v)], r4)
                  else none
            else none
      else none
/-- The elements of a non-empty array, up to and including the closing bracket. -/
def parseElements : Nat → List Nat → Option (List JSON × List Nat)
  | 0, _ => none
  | fuel + 1, s =>
    match parseValue fuel s with
    | none => none
    | some (v, r1) =>
      match skipSpace r1 with
      | [] => none
      | sep :: r2 =>
        if sep = 44 then
          match parseElements fuel r2 with
          | none => none
          | some (xs, r3) => some (v :: xs, r3)
        else if sep = 93 then some ([v], r2)
        else none
end

/-- A complete JSON text: one value, whitespace allowed around it, nothing else. -/
def parseJSON (data : List Nat) : Option JSON :=
  match parseValue (data.length + 1) data with
  | none => none
  | some (v, rest) => if skipSpace rest = [] then some v else none

/-- Value of a run of decimal digits; `none` if a byte is not a digit. -/
def digitsValue : Nat → List Nat → Option Nat
  | acc, [] => some acc
  | acc, c :: cs => if isDigit c then digitsValue (acc * 10 + (c - 48)) cs else none

/-- The sign handling of `strconv.ParseInt`: whether the text is negative, and the text
after an optional `+` or `-`. -/
def splitSign (s : List Nat) : Bool × List Nat :=
  match s with
  | [] => (false, s)
  | c :: rest => if c = 45 then (true, rest) else if c = 43 then (false, rest) else (false, s)

/-- Go `strconv.ParseInt(s, 10, 64)`: optional sign, digits, and the range of `int64`. -/
def parseInt64 (s : List Nat) : Option Int :=
  let (neg, ds) := splitSign s
  if ds = [] then none
  else
    match digitsValue 0 ds with
    | none => none
    | some n =>
      let i : Int := if neg then -(n : Int) else (n : Int)
      if -9223372036854775808 ≤ i ∧ i ≤ 9223372036854775807 then some i else none

/-- Go map assignment `m[k] = v`. -/
def mapSet (m : List (GoString × GoString)) (k v : GoString) : List (GoString × GoString) :=
  if m.any (fun kv => kv.1 = k) then m.map (fun kv => if kv.1 = k then (k, v) else kv)
  else m ++ [(k, v)]

/-- Store the members of a JSON object into a `map[string]string`: a string member sets
its key, `null` sets the key to the empty string, any other value is a type error. -/
def bindEntries : List (GoString × GoString) → List (GoString × JSON) →
    Option (List (GoString × GoString))
  | m, [] => some m
  | m, (k, .str v) :: ms => bindEntries (mapSet m k v) ms
  | m, (k, .null) :: ms => bindEntries (mapSet m k []) ms
  | _, _ :: _ => none

/-- Decode a JSON value into a string field: `null` leaves the field as it is. -/
def bindString (old : GoString) : JSON → Option GoString
  | .str s => some s
  | .null => some old
  | _ => none

/-- Decode a JSON value into a `map[string]string` field: `null` makes it nil, an object
is stored into the existing map (a new one if it is nil). -/
def bindMap (old : GoMap) : JSON → Option GoMap
  | .null => some none
  | .obj ms => (bindEntries (old.getD []) ms).map some
  | _ => none

/-- Decode a JSON value into the `int64` field: `null` leaves the field as it is. -/
def bindInt64 (old : Int) : JSON → Option Int
  | .num l => parseInt64 l
  | .null => some old
  | _ => none

/-- Store one member of a JSON object into the `Event` field carrying that JSON name;
a member with another name is skipped. (Names are compared exactly; `encoding/json` also
accepts a name that differs in letter case, which no encoded `Event` contains.) -/
def bindField (e : Event) (k : GoString) (v : JSON) : Option Event :=
  if k = lit "time" then (bindInt64 e.Time v).map (fun t => { e with Time := t })
  else if k = lit "host" then (bindString e.Host v).map (fun x => { e with Host := x })
  else if k = lit "source" then (bindString e.Source v).map (fun x => { e with Source := x })
  else if k = lit "sourcetype" then
    (bindString e.SourceType v).map (fun x => { e with SourceType := x })
  else if k = lit "index" then (bindString e.Index v).map (fun x => { e with Index := x })
  else if k = lit "event" then (bindMap e.Event v).map (fun x => { e with Event := x })
  else some e

/-- Store the members of a JSON object into an `Event`, in the order they appear. -/
def bindFields : Event → List (GoString × JSON) → Option Event
  | e, [] => some e
  | e, (k, v) :: ms =>
    match bindField e k v with
    | none => none
    | some e1 => bindFields e1 ms

/-- The zero value of `Event`. -/
def zeroEvent : Event :=
  { Time := 0, Host := [], Source := [], SourceType := [], Index := [], Event := none }

/-- Decode a JSON text into a fresh `Event` (`json.Unmarshal(data, &ev)` with `ev` zero). -/
def Unmarshal (data : List Nat) : Option Event :=
  match parseJSON data with
  | some (.obj ms) => bindFields zeroEvent ms
  | some .null => some zeroEvent
  | _ => none

/-- Member `k` of a JSON object (the first one carrying that name). -/
def JSON.member (k : GoString) : JSON → Option JSON
  | .obj ms => ms.lookup k
  | _ => none

/-- The names of the members of a JSON object, in order. -/
def JSON.keys : JSON → List GoString
  | .obj ms => ms.map Prod.fst
  | _ => []

/-! ## What a string and a map become in a JSON text -/

/-- Replace every byte that is not part of a well-formed UTF-8 encoding by the encoding of
U+FFFD and keep the well-formed encodings. `fuel` bounds the number of runes. -/
def coerceLoop : Nat → List Nat → List Nat
  | 0, _ => []
  | _, [] => []
  | fuel + 1, b :: rest =>
    let (c, size) := DecodeRune (b :: rest)
    if c = RuneError ∧ size = 1 then [239, 191, 189] ++ coerceLoop fuel rest
    else (b :: rest).take size ++ coerceLoop fuel (rest.drop (size - 1))

/-- The string `s` coerced to well-formed UTF-8. -/
def coerceUTF8 (s : GoString) : GoString := coerceLoop s.length s

/-- The JSON value that stands for a `map[string]string`: `null` for the nil map,
otherwise an object with one string member per entry, in key order. -/
def jsonOfMap : GoMap → JSON
  | none => .null
  | some kvs => .obj ((sortEntries kvs).map (fun kv => (coerceUTF8 kv.1, JSON.str (coerceUTF8 kv.2))))

/-- The JSON value that stands for an `Event`. -/
def jsonOfEvent (v : Event) : JSON :=
  .obj [(lit "time", .num (formatInt v.Time)),
        (lit "host", .str (coerceUTF8 v.Host)),
        (lit "source", .str (coerceUTF8 v.Source)),
        (lit "sourcetype", .str (coerceUTF8 v.SourceType)),
        (lit "index", .str (coerceUTF8 v.Index)),
        (lit "event", jsonOfMap v.Event)]

/-- Every key and every value of the map is well-formed UTF-8. -/
def GoMap.Valid : GoMap → Prop
  | none => True
  | some kvs => ∀ kv ∈ kvs, ValidString kv.1 = true ∧ ValidString kv.2 = true

/-- Two maps hold the same entries: both nil, or both non-nil with the same entries in
some order. -/
def GoMap.Same : GoMap → GoMap → Prop
  | none, none => True
  | some a, some b => a.Perm b
  | _, _ => False

instance (m : GoMap) : Decidable m.Valid := by
  cases m <;> unfold GoMap.Valid <;> exact inferInstance

instance (m : GoMap) : Decidable m.WF := by
  cases m <;> unfold GoMap.WF <;> exact inferInstance

instance (a b : GoMap) : Decidable (GoMap.Same a b) := by
  cases a <;> cases b <;> unfold GoMap.Same <;> exact inferInstance

/-- The JSON names of the six fields of `Event`, in declaration order. -/
def eventKeys : List GoString :=
  [lit "time", lit "host", lit "source", lit "sourcetype", lit "index", lit "event"]

/-- The JSON value holds the mapping: `null` for the nil map, otherwise an object whose
members are exactly the entries of the map, each value a JSON string. -/
def JSON.HoldsMap : JSON → GoMap → Prop
  | .null, none => True
  | .obj ms, some kvs => ms.Perm (kvs.map (fun kv => (kv.1, JSON.str kv.2)))
  | _, _ => False

/-! ## Example inputs -/

/-- An example behaviour of the libraries: the host is called `web-1`, the clock reads
1700000000, `json.Marshal` is `Marshal`, a raw URL starting with a colon is rejected (as
`net/url` does, with "missing protocol scheme"), and the client answers `answer`. -/
def exampleLib (answer : Except GoError Response) : Lib :=
  { Hostname := (lit "web-1", none)
    Now := 1700000000
    Marshal := Marshal
    ParseURL := fun url =>
      if url.head? = some 58 then some (.external "net/url" (lit "missing protocol scheme"))
      else none
    Do := fun _ => answer }

/-- A transport error. -/
def connRefused : GoError := .external "net" (lit "dial tcp: connection refused")

/-- An example collector. -/
def exampleCollector : HTTPCollector :=
  { Url := lit "https://splunk.example:8088/services/collector"
    Token := lit "0000-1111"
    Source := lit "app"
    SourceType := lit "json"
    Index := lit "main" }

/-- The example collector with a URL that `http.NewRequest` rejects. -/
def badUrlCollector : HTTPCollector := { exampleCollector with Url := lit "://bad" }

/-- An example field mapping. -/
def exampleFields : GoMap := some [(lit "status_code", lit "404"), (lit "error", lit "critical")]

/-- The request `Log` hands to the client for `exampleCollector` and `exampleFields`
under `exampleLib`. -/
def exampleRequest : Request :=
  { Method := lit "POST"
    URL := exampleCollector.Url
    Header := [(lit "Content-Type", [lit "application/json"]),
               (lit "Authorization", [lit "Splunk 0000-1111"])]
    Body := encodeEvent (exampleCollector.splunklog (exampleLib (.error connRefused)) exampleFields) }

/-- A response with status 500 and body `internal error`. -/
def internalError : Response :=
  { StatusCode := 500, Body := { data := lit "internal error", err := none } }

/-- A response with status 200 and a body. -/
def okResponse : Response :=
  { StatusCode := 200, Body := { data := lit "ignored", err := none } }

/-- A library behaviour in which `json.Marshal` fails. -/
def failingMarshalLib : Lib :=
  { exampleLib (.ok okResponse) with
    Marshal := fun _ => .error (.external "encoding/json" (lit "json: unsupported value")) }

/-- A library behaviour in which `os.Hostname` fails. -/
def noHostnameLib : Lib :=
  { exampleLib (.ok okResponse) with
    Hostname := ([], some (.external "os" (lit "hostname: not found"))) }

/-- The example collector with a `Source` that is not well-formed UTF-8 (the single byte
0xFF). -/
def invalidSourceCollector : HTTPCollector := { exampleCollector with Source := [255] }

/-- An `Event` of well-formed strings. -/
def exampleEvent : Event :=
  { Time := 1700000000
    Host := lit "web-1"
    Source := lit "app"
    SourceType := lit "json"
    Index := lit "main"
    Event := exampleFields }

/-- An `Event` whose `Host` is not well-formed UTF-8 (the single byte 0xFF). -/
def invalidHostEvent : Event := { exampleEvent with Host := [255] }

/-- The request for the example collector and mapping when the host name is empty. -/
def emptyHostRequest : Request :=
  { exampleRequest with Body := encodeEvent { exampleEvent with Host := [] } }

/-! ## UTF-8 decoding and encoding -/

/-- A well-formed two-byte encoding decodes to its rune, whatever follows. -/
theorem DecodeRune_two (s0 s1 : Nat) (t : List Nat) (h0 : 194 ≤ s0) (h0' : s0 < 224)
    (h1 : 128 ≤ s1) (h1' : s1 ≤ 191) :
    DecodeRune (s0 :: s1 :: t) = ((s0 % 32) * 64 + s1 % 64, 2) := by
  have a1 : ¬ s0 < 128 := by omega
  have a2 : ¬ (s0 < 194 ∨ 245 ≤ s0) := by omega
  have a3 : s0 ≠ 224 := by omega
  have a4 : s0 ≠ 240 := by omega
  have a5 : s0 ≠ 237 := by omega
  have a6 : s0 ≠ 244 := by omega
  have a7 : ¬ (s1 < 128 ∨ 191 < s1) := by omega
  simp [DecodeRune, a1, a2, a3, a4, a5, a6, a7, h0']

/-- A well-formed three-byte encoding decodes to its rune, whatever follows. -/
theorem DecodeRune_three (s0 s1 s2 : Nat) (t : List Nat) (h0 : 224 ≤ s0) (h0' : s0 < 240)
    (hlo : s0 = 224 → 160 ≤ s1) (hhi : s0 = 237 → s1 ≤ 159)
    (h1 : 128 ≤ s1) (h1' : s1 ≤ 191) (h2 : 128 ≤ s2) (h2' : s2 ≤ 191) :
    DecodeRune (s0 :: s1 :: s2 :: t) = ((s0 % 16) * 4096 + (s1 % 64) * 64 + s2 % 64, 3) := by
  have a1 : ¬ s0 < 128 := by omega
  have a2 : ¬ (s0 < 194 ∨ 245 ≤ s0) := by omega
  have a3 : ¬ s0 < 224 := by omega
  have a4 : s0 ≠ 240 := by omega
  have a6 : s0 ≠ 244 := by omega
  have a7 : ¬ (s2 < 128 ∨ 191 < s2) := by omega
  have a8 : ¬ (s1 < (if s0 = 224 then 160 else 128) ∨ (if s0 = 237 then 159 else 191) < s1) := by
    split_ifs <;> omega
  simp [DecodeRune, a1, a2, a3, a4, a6, a7, a8, h0']

/-- A well-formed four-byte encoding decodes to its rune, whatever follows. -/
theorem DecodeRune_four (s0 s1 s2 s3 : Nat) (t : List Nat) (h0 : 240 ≤ s0) (h0' : s0 ≤ 244)
    (hlo : s0 = 240 → 144 ≤ s1) (hhi : s0 = 244 → s1 ≤ 143)
    (h1 : 128 ≤ s1) (h1' : s1 ≤ 191) (h2 : 128 ≤ s2) (h2' : s2 ≤ 191)
    (h3 : 128 ≤ s3) (h3' : s3 ≤ 191) :
    DecodeRune (s0 :: s1 :: s2 :: s3 :: t)
      = ((s0 % 8) * 262144 + (s1 % 64) * 4096 + (s2 % 64) * 64 + s3 % 64, 4) := by
  have a1 : ¬ s0 < 128 := by omega
  have a2 : ¬ (s0 < 194 ∨ 245 ≤ s0) := by omega
  have a3 : ¬ s0 < 224 := by omega
  have a4 : ¬ s0 < 240 := by omega
  have a5 : s0 ≠ 224 := by omega
  have a6 : s0 ≠ 237 := by omega
  have a7 : ¬ (s2 < 128 ∨ 191 < s2) := by omega
  have a9 : ¬ (s3 < 128 ∨ 191 < s3) := by omega
  have a8 : ¬ (s1 < (if s0 = 240 then 144 else 128) ∨ (if s0 = 244 then 143 else 191) < s1) := by
    split_ifs <;> omega
  simp [DecodeRune, a1, a2, a3, a4, a5, a6, a7, a8, a9]

/-- The shapes of a decoding that starts at a non-ASCII byte: an error of width one, or a
well-formed encoding of two, three or four bytes. -/
theorem DecodeRune_cases (s0 : Nat) (t : List Nat) (h128 : 128 ≤ s0) :
    DecodeRune (s0 :: t) = (RuneError, 1) ∨
    (∃ s1 t1, t = s1 :: t1 ∧ 194 ≤ s0 ∧ s0 < 224 ∧ 128 ≤ s1 ∧ s1 ≤ 191) ∨
    (∃ s1 s2 t2, t = s1 :: s2 :: t2 ∧ 224 ≤ s0 ∧ s0 < 240 ∧ (s0 = 224 → 160 ≤ s1) ∧
      (s0 = 237 → s1 ≤ 159) ∧ 128 ≤ s1 ∧ s1 ≤ 191 ∧ 128 ≤ s2 ∧ s2 ≤ 191) ∨
    (∃ s1 s2 s3 t3, t = s1 :: s2 :: s3 :: t3 ∧ 240 ≤ s0 ∧ s0 ≤ 244 ∧ (s0 = 240 → 144 ≤ s1) ∧
      (s0 = 244 → s1 ≤ 143) ∧ 128 ≤ s1 ∧ s1 ≤ 191 ∧ 128 ≤ s2 ∧ s2 ≤ 191 ∧
      128 ≤ s3 ∧ s3 ≤ 191) := by
  by_cases hx : s0 < 194 ∨ 245 ≤ s0
  · left
    have a1 : ¬ s0 < 128 := by omega
    simp [DecodeRune, a1, hx]
  · rcases t with _ | ⟨s1, t1⟩
    · left
      have a1 : ¬ s0 < 128 := by omega
      simp only [DecodeRune, a1, hx, if_false, List.length_nil]
      split_ifs <;> rfl
    · by_cases h1 : s1 < (if s0 = 224 then 160 else if s0 = 240 then 144 else 128) ∨
          (if s0 = 237 then 159 else if s0 = 244 then 143 else 191) < s1
      · left
        have a1 : ¬ s0 < 128 := by omega
        simp only [DecodeRune, a1, hx, if_false, h1, if_true]
        split_ifs <;> rfl
      · have h1a : 128 ≤ s1 ∧ s1 ≤ 191 ∧ (s0 = 224 → 160 ≤ s1) ∧ (s0 = 240 → 144 ≤ s1) ∧
            (s0 = 237 → s1 ≤ 159) ∧ (s0 = 244 → s1 ≤ 143) := by
          split_ifs at h1 <;> omega
        by_cases hs2 : s0 < 224
        · right; left
          exact ⟨s1, t1, rfl, by omega, hs2, h1a.1, h1a.2.1⟩
        · rcases t1 with _ | ⟨s2, t2⟩
          · left
            have a1 : ¬ s0 < 128 := by omega
            simp only [DecodeRune, a1, hx, if_false, h1, hs2]
            split_ifs <;> first | rfl | (simp at *)
          · by_cases h2 : s2 < 128 ∨ 191 < s2
            · left
              have a1 : ¬ s0 < 128 := by omega
              simp only [DecodeRune, a1, hx, if_false, h1, hs2, h2, if_true]
              split_ifs <;> first | rfl | omega
            · by_cases hs3 : s0 < 240
              · right; right; left
                exact ⟨s1, s2, t2, rfl, by omega, hs3, h1a.2.2.1, h1a.2.2.2.2.1, h1a.1, h1a.2.1,
                  by omega, by omega⟩
              · rcases t2 with _ | ⟨s3, t3⟩
                · left
                  have a1 : ¬ s0 < 128 := by omega
                  simp only [DecodeRune, a1, hx, if_false, h1, hs2, hs3, h2]
                  split_ifs <;> first | rfl | (simp at *)
                · by_cases h3 : s3 < 128 ∨ 191 < s3
                  · left
                    have a1 : ¬ s0 < 128 := by omega
                    simp only [DecodeRune, a1, hx, if_false, h1, hs2, hs3, h2, h3, if_true]
                    split_ifs <;> first | rfl | omega
                  · right; right; right
                    exact ⟨s1, s2, s3, t3, rfl, by omega, by omega, h1a.2.2.2.1,
                      h1a.2.2.2.2.2, h1a.1, h1a.2.1, by omega, by omega, by omega, by omega⟩

/-- An ASCII rune is encoded as itself. -/
theorem EncodeRune_ascii (b : Nat) (h : b < 128) : EncodeRune b = [b] := by
  simp [EncodeRune]
  omega

/-- Encoding undoes the decoding of a well-formed two-byte sequence. -/
theorem EncodeRune_two (s0 s1 : Nat) (h0 : 194 ≤ s0) (h0' : s0 < 224)
    (h1 : 128 ≤ s1) (h1' : s1 ≤ 191) :
    EncodeRune ((s0 % 32) * 64 + s1 % 64) = [s0, s1] := by
  have a1 : ¬ (s0 % 32) * 64 + s1 % 64 ≤ 127 := by omega
  have a2 : (s0 % 32) * 64 + s1 % 64 ≤ 2047 := by omega
  simp only [EncodeRune, a1, a2, if_false, if_true]
  congr 1
  · omega
  · congr 1
    omega

/-- Encoding undoes the decoding of a well-formed three-byte sequence. -/
theorem EncodeRune_three (s0 s1 s2 : Nat) (h0 : 224 ≤ s0) (h0' : s0 < 240)
    (hlo : s0 = 224 → 160 ≤ s1) (hhi : s0 = 237 → s1 ≤ 159)
    (h1 : 128 ≤ s1) (h1' : s1 ≤ 191) (h2 : 128 ≤ s2) (h2' : s2 ≤ 191) :
    EncodeRune ((s0 % 16) * 4096 + (s1 % 64) * 64 + s2 % 64) = [s0, s1, s2] := by
  have a1 : ¬ (s0 % 16) * 4096 + (s1 % 64) * 64 + s2 % 64 ≤ 127 := by omega
  have a2 : ¬ (s0 % 16) * 4096 + (s1 % 64) * 64 + s2 % 64 ≤ 2047 := by omega
  have a3 : ¬ (1114111 < (s0 % 16) * 4096 + (s1 % 64) * 64 + s2 % 64 ∨
      (55296 ≤ (s0 % 16) * 4096 + (s1 % 64) * 64 + s2 % 64 ∧
        (s0 % 16) * 4096 + (s1 % 64) * 64 + s2 % 64 ≤ 57343)) := by omega
  have a4 : (s0 % 16) * 4096 + (s1 % 64) * 64 + s2 % 64 ≤ 65535 := by omega
  simp only [EncodeRune, a1, a2, a3, a4, if_false, if_true]
  congr 1
  · omega
  · congr 1
    · omega
    · congr 1
      omega

/-- Encoding undoes the decoding of a well-formed four-byte sequence. -/
theorem EncodeRune_four (s0 s1 s2 s3 : Nat) (h0 : 240 ≤ s0) (h0' : s0 ≤ 244)
    (hlo : s0 = 240 → 144 ≤ s1) (hhi : s0 = 244 → s1 ≤ 143)
    (h1 : 128 ≤ s1) (h1' : s1 ≤ 191) (h2 : 128 ≤ s2) (h2' : s2 ≤ 191)
    (h3 : 128 ≤ s3) (h3' : s3 ≤ 191) :
    EncodeRune ((s0 % 8) * 262144 + (s1 % 64) * 4096 + (s2 % 64) * 64 + s3 % 64)
      = [s0, s1, s2, s3] := by
  have a1 : ¬ (s0 % 8) * 262144 + (s1 % 64) * 4096 + (s2 % 64) * 64 + s3 % 64 ≤ 127 := by omega
  have a2 : ¬ (s0 % 8) * 262144 + (s1 % 64) * 4096 + (s2 % 64) * 64 + s3 % 64 ≤ 2047 := by
    omega
  have a3 : ¬ (1114111 < (s0 % 8) * 262144 + (s1 % 64) * 4096 + (s2 % 64) * 64 + s3 % 64 ∨
      (55296 ≤ (s0 % 8) * 262144 + (s1 % 64) * 4096 + (s2 % 64) * 64 + s3 % 64 ∧
        (s0 % 8) * 262144 + (s1 % 64) * 4096 + (s2 % 64) * 64 + s3 % 64 ≤ 57343)) := by omega
  have a4 : ¬ (s0 % 8) * 262144 + (s1 % 64) * 4096 + (s2 % 64) * 64 + s3 % 64 ≤ 65535 := by
    omega
  simp only [EncodeRune, a1, a2, a3, a4, if_false]
  congr 1
  · omega
  · congr 1
    · omega
    · congr 1
      · omega
      · congr 1
        omega

/-- A decoding that starts at a non-ASCII byte and is not an error splits the input into
the encoding of the rune, of the reported width, and the rest; the rune is decoded again
from that encoding whatever follows it, and encoding the rune gives those bytes back. -/
theorem DecodeRune_valid (s0 : Nat) (t : List Nat) (c size : Nat) (h128 : 128 ≤ s0)
    (hd : DecodeRune (s0 :: t) = (c, size)) (hv : ¬ (c = RuneError ∧ size = 1)) :
    ∃ pre post, t = pre ++ post ∧ pre.length + 1 = size ∧ EncodeRune c = s0 :: pre ∧
      ∀ tail, DecodeRune (s0 :: (pre ++ tail)) = (c, size) := by
  rcases DecodeRune_cases s0 t h128 with h | ⟨s1, t1, rfl, h0, h0', h1, h1'⟩ |
      ⟨s1, s2, t2, rfl, h0, h0', hlo, hhi, h1, h1', h2, h2'⟩ |
      ⟨s1, s2, s3, t3, rfl, h0, h0', hlo, hhi, h1, h1', h2, h2', h3, h3'⟩
  · rw [h] at hd
    simp only [Prod.mk.injEq] at hd
    exact absurd ⟨hd.1.symm, hd.2.symm⟩ hv
  · rw [DecodeRune_two s0 s1 t1 h0 h0' h1 h1'] at hd
    simp only [Prod.mk.injEq] at hd
    obtain ⟨rfl, rfl⟩ := hd
    exact ⟨[s1], t1, rfl, rfl, EncodeRune_two s0 s1 h0 h0' h1 h1',
      fun tail => DecodeRune_two s0 s1 tail h0 h0' h1 h1'⟩
  · rw [DecodeRune_three s0 s1 s2 t2 h0 h0' hlo hhi h1 h1' h2 h2'] at hd
    simp only [Prod.mk.injEq] at hd
    obtain ⟨rfl, rfl⟩ := hd
    exact ⟨[s1, s2], t2, rfl, rfl, EncodeRune_three s0 s1 s2 h0 h0' hlo hhi h1 h1' h2 h2',
      fun tail => DecodeRune_three s0 s1 s2 tail h0 h0' hlo hhi h1 h1' h2 h2'⟩
  · rw [DecodeRune_four s0 s1 s2 s3 t3 h0 h0' hlo hhi h1 h1' h2 h2' h3 h3'] at hd
    simp only [Prod.mk.injEq] at hd
    obtain ⟨rfl, rfl⟩ := hd
    exact ⟨[s1, s2, s3], t3, rfl, rfl,
      EncodeRune_four s0 s1 s2 s3 h0 h0' hlo hhi h1 h1' h2 h2' h3 h3',
      fun tail => DecodeRune_four s0 s1 s2 s3 tail h0 h0' hlo hhi h1 h1' h2 h2' h3 h3'⟩

/-- The function `DecodeRune` looks at no more than four bytes. -/
theorem DecodeRune_take4 (s0 : Nat) (t : List Nat) :
    DecodeRune ((s0 :: t).take 4) = DecodeRune (s0 :: t) := by
  by_cases h128 : 128 ≤ s0
  · rcases DecodeRune_cases s0 t h128 with h | ⟨s1, t1, rfl, h0, h0', h1, h1'⟩ |
      ⟨s1, s2, t2, rfl, h0, h0', hlo, hhi, h1, h1', h2, h2'⟩ |
      ⟨s1, s2, s3, t3, rfl, h0, h0', hlo, hhi, h1, h1', h2, h2', h3, h3'⟩
    · rw [h]
      rcases hd4 : DecodeRune ((s0 :: t).take 4) with ⟨c4, size4⟩
      by_cases hv4 : c4 = RuneError ∧ size4 = 1
      · obtain ⟨rfl, rfl⟩ := hv4
        rfl
      · exfalso
        simp only [List.take_succ_cons] at hd4
        obtain ⟨pre, post, hsplit, hlen, _, hdec⟩ := DecodeRune_valid s0 _ c4 size4 h128 hd4 hv4
        have hpre : t = pre ++ (post ++ t.drop 3) := by
          rw [← List.append_assoc, ← hsplit, List.take_append_drop]
        rw [hpre, hdec] at h
        simp only [Prod.mk.injEq] at h
        exact hv4 ⟨h.1, h.2⟩
    · simp only [List.take_succ_cons]
      rw [DecodeRune_two s0 s1 _ h0 h0' h1 h1', DecodeRune_two s0 s1 _ h0 h0' h1 h1']
    · simp only [List.take_succ_cons]
      rw [DecodeRune_three s0 s1 s2 _ h0 h0' hlo hhi h1 h1' h2 h2',
        DecodeRune_three s0 s1 s2 _ h0 h0' hlo hhi h1 h1' h2 h2']
    · simp only [List.take_succ_cons]
      rw [DecodeRune_four s0 s1 s2 s3 _ h0 h0' hlo hhi h1 h1' h2 h2' h3 h3',
        DecodeRune_four s0 s1 s2 s3 _ h0 h0' hlo hhi h1 h1' h2 h2' h3 h3']
  · have a1 : s0 < 128 := by omega
    simp [DecodeRune, a1]

/-! ## Decoding an encoded string -/

/-- One iteration of `unquoteLoop`. -/
theorem unquoteLoop_step (fuel c : Nat) (rest : List Nat) :
    unquoteLoop (fuel + 1) (c :: rest) =
    if c = 34 then some ([], rest)
    else if c = 92 then
      match rest with
      | [] => none
      | e :: rest1 =>
        if e = 34 ∨ e = 92 ∨ e = 47 then consBytes [e] (unquoteLoop fuel rest1)
        else if e = 98 then consBytes [8] (unquoteLoop fuel rest1)
        else if e = 102 then consBytes [12] (unquoteLoop fuel rest1)
        else if e = 110 then consBytes [10] (unquoteLoop fuel rest1)
        else if e = 114 then consBytes [13] (unquoteLoop fuel rest1)
        else if e = 116 then consBytes [9] (unquoteLoop fuel rest1)
        else if e = 117 then
          match getu4 (c :: rest) with
          | none => none
          | some rr =>
            let rest2 := rest.drop 5
            if 55296 ≤ rr ∧ rr < 57344 then
              match getu4 rest2 with
              | none => consBytes (EncodeRune RuneError) (unquoteLoop fuel rest2)
              | some rr1 =>
                let dec := utf16DecodeRune rr rr1
                if dec ≠ RuneError then consBytes (EncodeRune dec) (unquoteLoop fuel (rest2.drop 6))
                else consBytes (EncodeRune RuneError) (unquoteLoop fuel rest2)
            else consBytes (EncodeRune rr) (unquoteLoop fuel rest2)
        else none
    else if c < 32 then none
    else if c < 128 then consBytes [c] (unquoteLoop fuel rest)
    else
      let (rr, size) := DecodeRune (c :: rest)
      consBytes (EncodeRune rr) (unquoteLoop fuel (rest.drop (size - 1))) := rfl

/-- The closing quote ends a string literal. -/
theorem unquoteLoop_quote (F : Nat) (tail : List Nat) :
    unquoteLoop (F + 1) (34 :: tail) = some ([], tail) := by
  rw [unquoteLoop_step]
  simp

/-- A byte of `htmlSafeSet` is read back as itself. -/
theorem unquoteLoop_safe (F b : Nat) (X : List Nat) (hs : htmlSafe b = true) :
    unquoteLoop (F + 1) (b :: X) = consBytes [b] (unquoteLoop F X) := by
  simp only [htmlSafe, Bool.and_eq_true, decide_eq_true_eq, bne_iff_ne, ne_eq] at hs
  obtain ⟨⟨⟨⟨⟨⟨h32, h128⟩, h34⟩, h92⟩, _⟩, _⟩, _⟩ := hs
  have a3 : ¬ b < 32 := by omega
  rw [unquoteLoop_step]
  simp only [h34, h92, a3, h128, if_false, if_true]

/-- The escape of an ASCII byte outside `htmlSafeSet` is read back as that byte. -/
theorem unquoteLoop_escape (F b : Nat) (X : List Nat) (hb : b < 128) (hs : htmlSafe b = false) :
    unquoteLoop (F + 1) (escapeByte b ++ X) = consBytes [b] (unquoteLoop F X) := by
  have hcases : b < 32 ∨ b = 34 ∨ b = 38 ∨ b = 60 ∨ b = 62 ∨ b = 92 := by
    by_contra hcon
    have : htmlSafe b = true := by
      simp only [htmlSafe, Bool.and_eq_true, decide_eq_true_eq, bne_iff_ne, ne_eq]
      omega
    rw [this] at hs
    exact absurd hs (by decide)
  rcases hcases with h | rfl | rfl | rfl | rfl | rfl
  · interval_cases b <;>
      simp [escapeByte, unquoteLoop_step, getu4, hexVal, hexDigit, EncodeRune]
  all_goals simp [escapeByte, unquoteLoop_step, getu4, hexVal, hexDigit, EncodeRune]

/-- The escape of U+FFFD is read back as the encoding of U+FFFD. -/
theorem unquoteLoop_fffd (F : Nat) (X : List Nat) :
    unquoteLoop (F + 1) ([92, 117, 102, 102, 102, 100] ++ X)
      = consBytes [239, 191, 189] (unquoteLoop F X) := by
  simp [unquoteLoop_step, getu4, hexVal, EncodeRune]

/-- The escapes of U+2028 and U+2029 are read back as the encodings of these runes. -/
theorem unquoteLoop_linesep (F c : Nat) (X : List Nat) (hc : c = 8232 ∨ c = 8233) :
    unquoteLoop (F + 1) ([92, 117, 50, 48, 50, hexDigit (c % 16)] ++ X)
      = consBytes (EncodeRune c) (unquoteLoop F X) := by
  rcases hc with rfl | rfl <;> simp [unquoteLoop_step, getu4, hexVal, hexDigit, EncodeRune]

/-- A well-formed multi-byte encoding is read back as itself. -/
theorem unquoteLoop_raw (F b c size : Nat) (pre Y : List Nat) (hb : 128 ≤ b)
    (hdec : DecodeRune (b :: (pre ++ Y)) = (c, size)) (hlen : pre.length + 1 = size) :
    unquoteLoop (F + 1) (b :: (pre ++ Y)) = consBytes (EncodeRune c) (unquoteLoop F Y) := by
  have a1 : b ≠ 34 := by omega
  have a2 : b ≠ 92 := by omega
  have a3 : ¬ b < 32 := by omega
  have a4 : ¬ b < 128 := by omega
  rw [unquoteLoop_step]
  simp only [a1, a2, a3, a4, if_false, hdec]
  have : size - 1 = pre.length := by omega
  rw [this, List.drop_left]

/-- One iteration of `appendStringLoop`. -/
theorem appendStringLoop_step (fuel b : Nat) (rest : List Nat) :
    appendStringLoop (fuel + 1) (b :: rest) =
    if b < 128 then
      (if htmlSafe b then [b] else escapeByte b) ++ appendStringLoop fuel rest
    else
      let (c, size) := DecodeRune ((b :: rest).take 4)
      if c = RuneError ∧ size = 1 then
        [92, 117, 102, 102, 102, 100] ++ appendStringLoop fuel rest
      else if c = 8232 ∨ c = 8233 then
        [92, 117, 50, 48, 50, hexDigit (c % 16)] ++ appendStringLoop fuel (rest.drop (size - 1))
      else
        (b :: rest).take size ++ appendStringLoop fuel (rest.drop (size - 1)) := rfl

/-- One iteration of `coerceLoop`. -/
theorem coerceLoop_step (fuel b : Nat) (rest : List Nat) :
    coerceLoop (fuel + 1) (b :: rest) =
    let (c, size) := DecodeRune (b :: rest)
    if c = RuneError ∧ size = 1 then [239, 191, 189] ++ coerceLoop fuel rest
    else (b :: rest).take size ++ coerceLoop fuel (rest.drop (size - 1)) := rfl

/-- One iteration of `validLoop`. -/
theorem validLoop_step (fuel b : Nat) (rest : List Nat) :
    validLoop (fuel + 1) (b :: rest) =
    let (c, size) := DecodeRune (b :: rest)
    if c = RuneError ∧ size = 1 then false else validLoop fuel (rest.drop (size - 1)) := rfl

/-- The empty string is encoded as nothing. -/
theorem appendStringLoop_nil (fuel : Nat) : appendStringLoop fuel [] = [] := by
  cases fuel <;> rfl

/-- The empty string is coerced to itself. -/
theorem coerceLoop_nil (fuel : Nat) : coerceLoop fuel [] = [] := by
  cases fuel <;> rfl

/-- Decoding an ASCII byte. -/
theorem DecodeRune_ascii (b : Nat) (rest : List Nat) (hb : b < 128) :
    DecodeRune (b :: rest) = (b, 1) := by
  simp [DecodeRune, hb]

/-- The escape written for an ASCII byte is not empty. -/
theorem escapeByte_length_pos (b : Nat) : 1 ≤ (escapeByte b).length := by
  unfold escapeByte
  split_ifs <;> simp

/-- Reading back what `appendStringLoop` wrote, up to the closing quote, gives the string
coerced to well-formed UTF-8 and leaves what follows the quote. -/
theorem unquoteLoop_appendStringLoop (fuel : Nat) :
    ∀ (s : List Nat) (F : Nat) (tail : List Nat), s.length ≤ fuel →
      (appendStringLoop fuel s).length + 1 ≤ F →
      unquoteLoop F (appendStringLoop fuel s ++ 34 :: tail) = some (coerceLoop fuel s, tail) := by
  induction fuel with
  | zero =>
    intro s F tail hs hF
    have : s = [] := List.eq_nil_of_length_eq_zero (by omega)
    subst this
    obtain ⟨F', rfl⟩ : ∃ F', F = F' + 1 := ⟨F - 1, by omega⟩
    simp [appendStringLoop, coerceLoop, unquoteLoop_quote]
  | succ fuel ih =>
    intro s F tail hs hF
    obtain ⟨F', rfl⟩ : ∃ F', F = F' + 1 := ⟨F - 1, by omega⟩
    rcases s with _ | ⟨b, rest⟩
    · simp [appendStringLoop, coerceLoop, unquoteLoop_quote]
    · have hrest : rest.length ≤ fuel := by simpa using hs
      rw [appendStringLoop_step] at hF ⊢
      rw [coerceLoop_step]
      by_cases hb : b < 128
      · rw [if_pos hb] at hF ⊢
        rw [DecodeRune_ascii b rest hb]
        have hne : ¬ (b = RuneError ∧ True) := by
          unfold RuneError
          omega
        simp only []
        rw [if_neg hne]
        simp only [List.take_succ_cons, List.take_zero, Nat.sub_self, List.drop_zero]
        by_cases hsafe' : htmlSafe b = true
        swap
        · have hsafe : htmlSafe b = false := by simpa using hsafe'
          have e1 : (if htmlSafe b = true then [b] else escapeByte b) = escapeByte b := by
            simp [hsafe]
          rw [e1] at hF ⊢
          rw [List.append_assoc, unquoteLoop_escape F' b _ hb hsafe]
          have hpos := escapeByte_length_pos b
          have hF' : (appendStringLoop fuel rest).length + 1 ≤ F' := by
            simp only [List.length_append] at hF
            omega
          rw [ih rest F' tail hrest hF']
          rfl
        · have hsafe : htmlSafe b = true := hsafe'
          have e1 : (if htmlSafe b = true then [b] else escapeByte b) = [b] := by
            simp [hsafe]
          rw [e1] at hF ⊢
          rw [List.append_assoc, List.singleton_append, unquoteLoop_safe F' b _ hsafe]
          have hF' : (appendStringLoop fuel rest).length + 1 ≤ F' := by
            simp only [List.length_append, List.length_cons, List.length_nil] at hF
            omega
          rw [ih rest F' tail hrest hF']
          rfl
      · rw [if_neg hb] at hF ⊢
        rw [DecodeRune_take4] at hF ⊢
        rcases hd : DecodeRune (b :: rest) with ⟨c, size⟩
        simp only [hd] at hF ⊢
        by_cases hv : c = RuneError ∧ size = 1
        · simp only [hv, and_self, if_true, List.append_assoc] at hF ⊢
          rw [unquoteLoop_fffd]
          have hF' : (appendStringLoop fuel rest).length + 1 ≤ F' := by
            simp only [List.length_append, List.length_cons, List.length_nil] at hF
            omega
          rw [ih rest F' tail hrest hF']
          rfl
        · simp only [if_neg hv] at hF ⊢
          obtain ⟨pre, post, rfl, hlen, henc, hdec⟩ :=
            DecodeRune_valid b rest c size (by omega) hd hv
          have hsz : size - 1 = pre.length := by omega
          have htake : (b :: (pre ++ post)).take size = b :: pre := by
            rw [← hlen]
            simp
          have hpost : post.length ≤ fuel := by
            simp only [List.length_append] at hrest
            omega
          rw [hsz, List.drop_left, htake] at hF ⊢
          by_cases hls : c = 8232 ∨ c = 8233
          · simp only [if_pos hls] at hF ⊢
            rw [List.append_assoc, unquoteLoop_linesep F' c _ hls, henc]
            have hF' : (appendStringLoop fuel post).length + 1 ≤ F' := by
              simp only [List.length_append, List.length_cons, List.length_nil] at hF
              omega
            rw [ih post F' tail hpost hF']
            rfl
          · simp only [if_neg hls] at hF ⊢
            simp only [List.cons_append, List.append_assoc]
            rw [unquoteLoop_raw F' b c size pre _ (by omega) (hdec _) hlen, henc]
            have hF' : (appendStringLoop fuel post).length + 1 ≤ F' := by
              simp only [List.length_append, List.length_cons] at hF
              omega
            rw [ih post F' tail hpost hF']
            rfl

/-- A quoted string, read after its opening quote. -/
theorem unquote_appendString (s : GoString) (tail : List Nat) :
    ∃ body, appendString s ++ tail = 34 :: body ∧ unquote body = some (coerceUTF8 s, tail) := by
  refine ⟨appendStringLoop s.length s ++ 34 :: tail, ?_, ?_⟩
  · simp [appendString]
  · unfold unquote coerceUTF8
    exact unquoteLoop_appendStringLoop s.length s _ tail (le_refl _) (by simp)

/-- Well-formed UTF-8 is left as it is. -/
theorem coerceLoop_valid (fuel : Nat) :
    ∀ s : List Nat, s.length ≤ fuel → validLoop fuel s = true → coerceLoop fuel s = s := by
  induction fuel with
  | zero =>
    intro s hs _
    have : s = [] := List.eq_nil_of_length_eq_zero (by omega)
    subst this
    rfl
  | succ fuel ih =>
    intro s hs hv
    rcases s with _ | ⟨b, rest⟩
    · rfl
    · have hrest : rest.length ≤ fuel := by simpa using hs
      rw [validLoop_step] at hv
      rw [coerceLoop_step]
      rcases hd : DecodeRune (b :: rest) with ⟨c, size⟩
      simp only [hd] at hv ⊢
      by_cases hbad : c = RuneError ∧ size = 1
      · simp [hbad] at hv
      · rw [if_neg hbad] at hv ⊢
        by_cases hb : b < 128
        · rw [DecodeRune_ascii b rest hb] at hd
          simp only [Prod.mk.injEq] at hd
          obtain ⟨rfl, rfl⟩ := hd
          simp only [Nat.sub_self, List.drop_zero, List.take_succ_cons, List.take_zero] at hv ⊢
          rw [ih rest hrest hv]
          rfl
        · obtain ⟨pre, post, rfl, hlen, _, _⟩ := DecodeRune_valid b rest c size (by omega) hd hbad
          have hsz : size - 1 = pre.length := by omega
          have htake : (b :: (pre ++ post)).take size = b :: pre := by
            rw [← hlen]
            simp
          rw [hsz, List.drop_left] at hv ⊢
          rw [htake, ih post (by simp only [List.length_append] at hrest; omega) hv]
          simp

/-- A valid string is coerced to itself. -/
theorem coerceUTF8_valid (s : GoString) (h : ValidString s = true) : coerceUTF8 s = s :=
  coerceLoop_valid s.length s (le_refl _) h

/-- The result of `appendStringLoop` does not depend on the fuel, once the fuel covers the
length of the string: the loop never stops early. -/
theorem appendStringLoop_fuel (fuel1 : Nat) :
    ∀ (fuel2 : Nat) (s : List Nat), s.length ≤ fuel1 → s.length ≤ fuel2 →
      appendStringLoop fuel1 s = appendStringLoop fuel2 s := by
  induction fuel1 with
  | zero =>
    intro fuel2 s h1 _
    have : s = [] := List.eq_nil_of_length_eq_zero (by omega)
    subst this
    rw [appendStringLoop_nil, appendStringLoop_nil]
  | succ fuel1 ih =>
    intro fuel2 s h1 h2
    rcases s with _ | ⟨b, rest⟩
    · rw [appendStringLoop_nil, appendStringLoop_nil]
    · obtain ⟨g, rfl⟩ : ∃ g, fuel2 = g + 1 := ⟨fuel2 - 1, by simp at h2; omega⟩
      have hr1 : rest.length ≤ fuel1 := by simpa using h1
      have hr2 : rest.length ≤ g := by simpa using h2
      rw [appendStringLoop_step, appendStringLoop_step]
      rcases DecodeRune ((b :: rest).take 4) with ⟨c, size⟩
      have e1 := ih g rest hr1 hr2
      have e2 := ih g (rest.drop (size - 1)) (by rw [List.length_drop]; omega)
        (by rw [List.length_drop]; omega)
      simp only [e1, e2]

/-- The result of `coerceLoop` does not depend on the fuel, once the fuel covers the
length of the string. -/
theorem coerceLoop_fuel (fuel1 : Nat) :
    ∀ (fuel2 : Nat) (s : List Nat), s.length ≤ fuel1 → s.length ≤ fuel2 →
      coerceLoop fuel1 s = coerceLoop fuel2 s := by
  induction fuel1 with
  | zero =>
    intro fuel2 s h1 _
    have : s = [] := List.eq_nil_of_length_eq_zero (by omega)
    subst this
    rw [coerceLoop_nil, coerceLoop_nil]
  | succ fuel1 ih =>
    intro fuel2 s h1 h2
    rcases s with _ | ⟨b, rest⟩
    · rw [coerceLoop_nil, coerceLoop_nil]
    · obtain ⟨g, rfl⟩ : ∃ g, fuel2 = g + 1 := ⟨fuel2 - 1, by simp at h2; omega⟩
      have hr1 : rest.length ≤ fuel1 := by simpa using h1
      have hr2 : rest.length ≤ g := by simpa using h2
      rw [coerceLoop_step, coerceLoop_step]
      rcases DecodeRune (b :: rest) with ⟨c, size⟩
      have e1 := ih g rest hr1 hr2
      have e2 := ih g (rest.drop (size - 1)) (by rw [List.length_drop]; omega)
        (by rw [List.length_drop]; omega)
      simp only [e1, e2]

/-- The coercion, rune by rune: an invalid byte becomes U+FFFD, a well-formed encoding is
kept, and the rest of the string is coerced in the same way. -/
theorem coerceUTF8_cons (b : Nat) (rest : List Nat) :
    coerceUTF8 (b :: rest) =
      if (DecodeRune (b :: rest)).1 = RuneError ∧ (DecodeRune (b :: rest)).2 = 1 then
        [239, 191, 189] ++ coerceUTF8 rest
      else
        (b :: rest).take (DecodeRune (b :: rest)).2
          ++ coerceUTF8 (rest.drop ((DecodeRune (b :: rest)).2 - 1)) := by
  unfold coerceUTF8
  rw [List.length_cons, coerceLoop_step]
  rcases DecodeRune (b :: rest) with ⟨c, size⟩
  have e2 := coerceLoop_fuel rest.length (rest.drop (size - 1)).length (rest.drop (size - 1))
    (by rw [List.length_drop]; omega) (le_refl _)
  simp only [e2]

/-- The encoding of a string, byte by byte or rune by rune: the loop of `appendString`
consumes the whole string. -/
theorem appendStringLoop_cons (b : Nat) (rest : List Nat) :
    appendStringLoop (b :: rest).length (b :: rest) =
      if b < 128 then
        (if htmlSafe b then [b] else escapeByte b) ++ appendStringLoop rest.length rest
      else if (DecodeRune (b :: rest)).1 = RuneError ∧ (DecodeRune (b :: rest)).2 = 1 then
        [92, 117, 102, 102, 102, 100] ++ appendStringLoop rest.length rest
      else if (DecodeRune (b :: rest)).1 = 8232 ∨ (DecodeRune (b :: rest)).1 = 8233 then
        [92, 117, 50, 48, 50, hexDigit ((DecodeRune (b :: rest)).1 % 16)]
          ++ appendStringLoop (rest.drop ((DecodeRune (b :: rest)).2 - 1)).length
              (rest.drop ((DecodeRune (b :: rest)).2 - 1))
      else
        (b :: rest).take (DecodeRune (b :: rest)).2
          ++ appendStringLoop (rest.drop ((DecodeRune (b :: rest)).2 - 1)).length
              (rest.drop ((DecodeRune (b :: rest)).2 - 1)) := by
  rw [List.length_cons, appendStringLoop_step, DecodeRune_take4]
  rcases DecodeRune (b :: rest) with ⟨c, size⟩
  have e2 := appendStringLoop_fuel rest.length (rest.drop (size - 1)).length
    (rest.drop (size - 1)) (by rw [List.length_drop]; omega) (le_refl _)
  simp only [e2]

/-! ## Decoding an encoded integer -/

/-- The value of a run of digits followed by more digits. -/
theorem digitsValue_append (xs ys : List Nat) :
    ∀ a, digitsValue a (xs ++ ys) = (digitsValue a xs).bind (fun v => digitsValue v ys) := by
  induction xs with
  | nil => intro a; rfl
  | cons x xs ih =>
    intro a
    simp only [List.cons_append, digitsValue]
    split_ifs
    · exact ih _
    · rfl

/-- What `digitsLoop` writes in front of `acc`: a non-empty run of digits, whose value is
`n`, and which starts with a zero only when `n` is zero. -/
theorem digitsLoop_spec (fuel : Nat) :
    ∀ (n : Nat) (acc : List Nat), n < fuel →
      ∃ h t, digitsLoop fuel n acc = h :: t ++ acc ∧ (∀ d ∈ h :: t, isDigit d = true) ∧
        (n = 0 → h = 48 ∧ t = []) ∧ (n ≠ 0 → 49 ≤ h) ∧ digitsValue 0 (h :: t) = some n := by
  induction fuel with
  | zero => intro n acc h; omega
  | succ fuel ih =>
    intro n acc hn
    by_cases h10 : n < 10
    · refine ⟨48 + n, [], ?_, ?_, ?_, ?_, ?_⟩
      · simp [digitsLoop, h10]
      · intro d hd
        simp only [List.mem_singleton] at hd
        subst hd
        simp only [isDigit, Bool.and_eq_true, decide_eq_true_eq]
        omega
      · intro h0
        subst h0
        simp
      · intro h0
        omega
      · have : isDigit (48 + n) = true := by
          simp only [isDigit, Bool.and_eq_true, decide_eq_true_eq]
          omega
        simp [digitsValue, this]
    · obtain ⟨h, t, heq, hdig, _, hne, hval⟩ := ih (n / 10) ((48 + n % 10) :: acc) (by omega)
      have hlast : isDigit (48 + n % 10) = true := by
        simp only [isDigit, Bool.and_eq_true, decide_eq_true_eq]
        omega
      refine ⟨h, t ++ [48 + n % 10], ?_, ?_, ?_, ?_, ?_⟩
      · simp only [digitsLoop, h10, if_false, heq]
        simp
      · intro d hd
        simp only [List.mem_cons, List.mem_append, List.mem_singleton, List.not_mem_nil,
          or_false] at hd
        rcases hd with rfl | hd | rfl
        · exact hdig _ (List.mem_cons_self _ _)
        · exact hdig _ (List.mem_cons_of_mem _ hd)
        · exact hlast
      · intro h0
        omega
      · intro _
        exact hne (by omega)
      · rw [← List.cons_append, digitsValue_append, hval]
        simp only [Option.some_bind, digitsValue, hlast, if_true]
        congr 1
        omega

/-- The decimal text of a natural number: a non-empty run of digits of value `n`, with a
leading zero only for zero. -/
theorem formatUint_spec (n : Nat) :
    ∃ h t, formatUint n = h :: t ∧ (∀ d ∈ h :: t, isDigit d = true) ∧
      (n = 0 → h = 48 ∧ t = []) ∧ (n ≠ 0 → 49 ≤ h) ∧ digitsValue 0 (h :: t) = some n := by
  obtain ⟨h, t, heq, rest⟩ := digitsLoop_spec (n + 1) n [] (by omega)
  exact ⟨h, t, by simpa [formatUint] using heq, rest⟩

/-- A run of digits ends at the first byte that is not a digit. -/
theorem span_isDigit (ds : List Nat) (c : Nat) (tail : List Nat)
    (hds : ∀ d ∈ ds, isDigit d = true) (hc : isDigit c = false) :
    (ds ++ c :: tail).span isDigit = (ds, c :: tail) := by
  rw [List.span_eq_take_drop]
  induction ds with
  | nil => simp [List.takeWhile, List.dropWhile, hc]
  | cons d ds ih =>
    have hd : isDigit d = true := hds d (List.mem_cons_self _ _)
    have ih' := ih (fun x hx => hds x (List.mem_cons_of_mem _ hx))
    simp only [Prod.mk.injEq] at ih'
    simp [List.takeWhile, List.dropWhile, hd, ih'.1, ih'.2]

/-- The integer part of a number literal is read back from the decimal text of `n`. -/
theorem scanInt_formatUint (n c : Nat) (tail : List Nat) (hc : isDigit c = false) :
    scanInt (formatUint n ++ c :: tail) = some (formatUint n, c :: tail) := by
  obtain ⟨h, t, heq, hdig, h0, hne, _⟩ := formatUint_spec n
  rw [heq]
  by_cases hn : n = 0
  · obtain ⟨rfl, rfl⟩ := h0 hn
    simp [scanInt]
  · have h49 := hne hn
    have hh := hdig h (List.mem_cons_self _ _)
    simp only [isDigit, Bool.and_eq_true, decide_eq_true_eq] at hh
    have a1 : h ≠ 48 := by omega
    have a2 : 49 ≤ h ∧ h ≤ 57 := ⟨h49, hh.2⟩
    have hsp := span_isDigit t c tail (fun d hd => hdig d (List.mem_cons_of_mem _ hd)) hc
    simp only [scanInt, List.cons_append, a1, a2, if_false, and_self, if_true, hsp]

/-- A number literal is read back from the decimal text of an integer, when a comma or a
closing brace follows. -/
theorem scanNumber_formatInt (i : Int) (c : Nat) (tail : List Nat) (hc : c = 44 ∨ c = 125) :
    scanNumber (formatInt i ++ c :: tail) = some (formatInt i, c :: tail) := by
  have hcd : isDigit c = false := by
    rcases hc with rfl | rfl <;> decide
  have hfrac : scanFrac (c :: tail) = some ([], c :: tail) := by
    rcases hc with rfl | rfl <;> simp [scanFrac]
  have hexp : scanExp (c :: tail) = some ([], c :: tail) := by
    rcases hc with rfl | rfl <;> simp [scanExp]
  unfold formatInt
  by_cases hi : i < 0
  · simp only [hi, if_true, List.cons_append]
    simp [scanNumber, scanSign, scanInt_formatUint _ c tail hcd, hfrac, hexp]
  · simp only [hi, if_false]
    obtain ⟨h, t, heq, hdig, _, _, _⟩ := formatUint_spec i.toNat
    have hsign : scanSign (formatUint i.toNat ++ c :: tail)
        = ([], formatUint i.toNat ++ c :: tail) := by
      rw [heq]
      have hh := hdig h (List.mem_cons_self _ _)
      simp only [isDigit, Bool.and_eq_true, decide_eq_true_eq] at hh
      have a1 : h ≠ 45 := by omega
      simp [scanSign, a1]
    simp [scanNumber, hsign, scanInt_formatUint _ c tail hcd, hfrac, hexp]

/-- The decimal text of an integer starts with a minus sign or a digit. -/
theorem formatInt_head (i : Int) :
    ∃ h t, formatInt i = h :: t ∧ (h = 45 ∨ (48 ≤ h ∧ h ≤ 57)) := by
  unfold formatInt
  by_cases hi : i < 0
  · exact ⟨45, formatUint (-i).toNat, by simp [hi], Or.inl rfl⟩
  · obtain ⟨h, t, heq, hdig, _, _, _⟩ := formatUint_spec i.toNat
    have hh := hdig h (List.mem_cons_self _ _)
    simp only [isDigit, Bool.and_eq_true, decide_eq_true_eq] at hh
    exact ⟨h, t, by simp [hi, heq], Or.inr hh⟩

/-- Parsing the decimal text of an `int64` gives the integer back. -/
theorem parseInt64_formatInt (i : Int) (hlo : -9223372036854775808 ≤ i)
    (hhi : i ≤ 9223372036854775807) : parseInt64 (formatInt i) = some i := by
  unfold formatInt
  by_cases hi : i < 0
  · simp only [hi, if_true]
    obtain ⟨h, t, heq, _, _, _, hval⟩ := formatUint_spec (-i).toNat
    have hcast : -(((-i).toNat : Nat) : Int) = i := by omega
    simp only [parseInt64, splitSign, if_true, heq, hval, hcast]
    simp [hlo, hhi]
  · simp only [hi, if_false]
    obtain ⟨h, t, heq, hdig, _, _, hval⟩ := formatUint_spec i.toNat
    have hh := hdig h (List.mem_cons_self _ _)
    simp only [isDigit, Bool.and_eq_true, decide_eq_true_eq] at hh
    have a1 : h ≠ 45 := by omega
    have a2 : h ≠ 43 := by omega
    have hcast : ((i.toNat : Nat) : Int) = i := by omega
    simp only [parseInt64, splitSign, heq, a1, a2, if_false, hval, hcast]
    simp [hlo, hhi]

/-! ## Decoding an encoded object -/

/-- One step of `parseValue`. -/
theorem parseValue_step (fuel : Nat) (s : List Nat) :
    parseValue (fuel + 1) s =
    match skipSpace s with
    | [] => none
    | c :: rest =>
      if c = 123 then
        match skipSpace rest with
        | [] => none
        | d :: rest1 =>
          if d = 125 then some (.obj [], rest1)
          else
            match parseMembers fuel (d :: rest1) with
            | none => none
            | some (ms, rest2) => some (.obj ms, rest2)
      else if c = 91 then
        match skipSpace rest with
        | [] => none
        | d :: rest1 =>
          if d = 93 then some (.arr [], rest1)
          else
            match parseElements fuel (d :: rest1) with
            | none => none
            | some (xs, rest2) => some (.arr xs, rest2)
      else if c = 34 then
        match unquote rest with
        | none => none
        | some (str, rest1) => some (.str str, rest1)
      else if c = 116 then (stripWord (lit "true") (c :: rest)).map (fun r => (.bool true, r))
      else if c = 102 then (stripWord (lit "false") (c :: rest)).map (fun r => (.bool false, r))
      else if c = 110 then (stripWord (lit "null") (c :: rest)).map (fun r => (.null, r))
      else
        match scanNumber (c :: rest) with
        | none => none
        | some (l, rest1) => some (.num l, rest1) := by
  rfl

/-- One step of `parseMembers`. -/
theorem parseMembers_step (fuel : Nat) (s : List Nat) :
    parseMembers (fuel + 1) s =
    match skipSpace s with
    | [] => none
    | q :: r =>
      if q = 34 then
        match unquote r with
        | none => none
        | some (k, r1) =>
          match skipSpace r1 with
          | [] => none
          | colon :: r2 =>
            if colon = 58 then
              match parseValue fuel r2 with
              | none => none
              | some (v, r3) =>
                match skipSpace r3 with
                | [] => none
                | sep :: r4 =>
                  if sep = 44 then
                    match parseMembers fuel r4 with
                    | none => none
                    | some (ms, r5) => some ((k, v) :: ms, r5)
                  else if sep = 125 then some ([(k, v)], r4)
                  else none
            else none
      else none := by
  rfl

/-- Nothing is skipped in front of a byte that is not whitespace. -/
theorem skipSpace_cons (c : Nat) (r : List Nat) (h : isSpace c = false) :
    skipSpace (c :: r) = c :: r := by
  simp [skipSpace, h]

/-- An encoded string is decoded to the coerced string. -/
theorem parseValue_string (F : Nat) (s : GoString) (tail : List Nat) :
    parseValue (F + 1) (appendString s ++ tail) = some (.str (coerceUTF8 s), tail) := by
  obtain ⟨body, hb, hu⟩ := unquote_appendString s tail
  rw [parseValue_step, hb, skipSpace_cons 34 body (by decide)]
  simp [hu]

/-- The decimal text of an integer is decoded to a number with that literal. -/
theorem parseValue_int (F : Nat) (i : Int) (c : Nat) (tail : List Nat)
    (hc : c = 44 ∨ c = 125) :
    parseValue (F + 1) (formatInt i ++ c :: tail) = some (.num (formatInt i), c :: tail) := by
  have hscan := scanNumber_formatInt i c tail hc
  obtain ⟨h, t, heq, hh⟩ := formatInt_head i
  rw [heq] at hscan ⊢
  rw [parseValue_step]
  have hsp : isSpace h = false := by
    simp only [isSpace, Bool.or_eq_false_iff, decide_eq_false_iff_not]
    omega
  rw [List.cons_append, skipSpace_cons h _ hsp]
  have a1 : h ≠ 123 := by omega
  have a2 : h ≠ 91 := by omega
  have a3 : h ≠ 34 := by omega
  have a4 : h ≠ 116 := by omega
  have a5 : h ≠ 102 := by omega
  have a6 : h ≠ 110 := by omega
  rw [List.cons_append] at hscan
  simp only [a1, a2, a3, a4, a5, a6, if_false, hscan]

/-- The word `null` is decoded to the null value. -/
theorem parseValue_null (F : Nat) (tail : List Nat) :
    parseValue (F + 1) (lit "null" ++ tail) = some (.null, tail) := by
  have hl : lit "null" = [110, 117, 108, 108] := by decide
  rw [parseValue_step, hl]
  simp [skipSpace, isSpace, stripWord, hl]

/-- A member that is not the last one of its object. -/
theorem parseMembers_more (F : Nat) (k : GoString) (X rest rest1 : List Nat) (val : JSON)
    (ms : List (GoString × JSON))
    (hv : parseValue F X = some (val, 44 :: rest))
    (hm : parseMembers F rest = some (ms, rest1)) :
    parseMembers (F + 1) (appendString k ++ 58 :: X) = some ((coerceUTF8 k, val) :: ms, rest1) := by
  obtain ⟨body, hb, hu⟩ := unquote_appendString k (58 :: X)
  rw [parseMembers_step, hb, skipSpace_cons 34 body (by decide)]
  simp only [if_true, hu, skipSpace_cons 58 X (by decide), hv,
    skipSpace_cons 44 rest (by decide), hm]

/-- The last member of an object. -/
theorem parseMembers_last (F : Nat) (k : GoString) (X rest : List Nat) (val : JSON)
    (hv : parseValue F X = some (val, 125 :: rest)) :
    parseMembers (F + 1) (appendString k ++ 58 :: X) = some ([(coerceUTF8 k, val)], rest) := by
  obtain ⟨body, hb, hu⟩ := unquote_appendString k (58 :: X)
  rw [parseMembers_step, hb, skipSpace_cons 34 body (by decide)]
  have h1 : (125 : Nat) ≠ 44 := by decide
  simp only [if_true, hu, skipSpace_cons 58 X (by decide), hv,
    skipSpace_cons 125 rest (by decide), h1, if_false]

/-- The JSON member that stands for a map entry. -/
theorem encodeEntries_false_cons (kv : GoString × GoString) (kvs : List (GoString × GoString)) :
    encodeEntries false (kv :: kvs) = 44 :: encodeEntries true (kv :: kvs) := by
  simp [encodeEntries]

/-- The encoded entries of a non-empty map, up to the closing brace, are decoded to one
string member per entry. -/
theorem parseMembers_entries (kvs : List (GoString × GoString)) :
    ∀ (kv : GoString × GoString) (F : Nat) (tail : List Nat), kvs.length + 2 ≤ F →
      parseMembers F (encodeEntries true (kv :: kvs) ++ 125 :: tail)
        = some ((kv :: kvs).map (fun e => (coerceUTF8 e.1, JSON.str (coerceUTF8 e.2))), tail) := by
  induction kvs with
  | nil =>
    intro kv F tail hF
    obtain ⟨F1, rfl⟩ : ∃ F1, F = F1 + 2 := ⟨F - 2, by omega⟩
    have hv := parseValue_string F1 kv.2 (125 :: tail)
    have := parseMembers_last (F1 + 1) kv.1 _ tail _ hv
    simpa [encodeEntries] using this
  | cons kv1 kvs ih =>
    intro kv F tail hF
    obtain ⟨F1, rfl⟩ : ∃ F1, F = F1 + 2 := ⟨F - 2, by omega⟩
    have hrec := ih kv1 (F1 + 1) tail (by simp only [List.length_cons] at hF; omega)
    have hv := parseValue_string F1 kv.2 (44 :: (encodeEntries true (kv1 :: kvs) ++ 125 :: tail))
    have := parseMembers_more (F1 + 1) kv.1 _ _ tail _ _ hv hrec
    have e : encodeEntries true (kv :: kv1 :: kvs) ++ 125 :: tail
        = appendString kv.1 ++ 58 :: (appendString kv.2 ++
            44 :: (encodeEntries true (kv1 :: kvs) ++ 125 :: tail)) := by
      rw [encodeEntries, encodeEntries_false_cons]
      simp
    rw [e]
    exact this

/-- The first byte of a quoted string is the quote. -/
theorem appendString_eq_cons (s : GoString) :
    appendString s = 34 :: (appendStringLoop s.length s ++ [34]) := rfl

/-- An encoded map is decoded to the JSON value that stands for it. -/
theorem parseValue_map (m : GoMap) (F : Nat) (tail : List Nat)
    (hF : (m.getD []).length + 2 ≤ F) :
    parseValue F (encodeMap m ++ tail) = some (jsonOfMap m, tail) := by
  obtain ⟨F1, rfl⟩ : ∃ F1, F = F1 + 1 := ⟨F - 1, by omega⟩
  cases m with
  | none => exact parseValue_null F1 tail
  | some kvs =>
    have hlen : (sortEntries kvs).length = kvs.length := List.length_insertionSort _ _
    simp only [encodeMap, jsonOfMap]
    rcases hs : sortEntries kvs with _ | ⟨kv, rest⟩
    · rw [parseValue_step]
      simp [encodeEntries, skipSpace, isSpace]
    · have hrest : rest.length + 2 ≤ F1 := by
        rw [hs] at hlen
        simp only [List.length_cons, Option.getD_some] at hlen hF
        omega
      have hmem := parseMembers_entries rest kv F1 tail hrest
      rw [parseValue_step]
      have e1 : (123 :: (encodeEntries true (kv :: rest) ++ [125]) ++ tail)
          = 123 :: (encodeEntries true (kv :: rest) ++ 125 :: tail) := by simp
      rw [e1, skipSpace_cons 123 _ (by decide)]
      simp only [if_true]
      have e2 : encodeEntries true (kv :: rest) ++ 125 :: tail
          = 34 :: (appendStringLoop kv.1.length kv.1 ++ [34] ++ (58 :: (appendString kv.2 ++
              encodeEntries false rest)) ++ 125 :: tail) := by
        simp [encodeEntries, appendString_eq_cons]
      have h34 : (34 : Nat) ≠ 125 := by decide
      rw [e2] at hmem ⊢
      rw [skipSpace_cons 34 _ (by decide)]
      simp only [if_true, h34, if_false, hmem]

/-- Every entry of a map takes at least one byte of the encoding. -/
theorem encodeEntries_length (kvs : List (GoString × GoString)) :
    ∀ b, kvs.length ≤ (encodeEntries b kvs).length := by
  induction kvs with
  | nil => intro b; simp [encodeEntries]
  | cons kv kvs ih =>
    intro b
    have := ih false
    simp only [encodeEntries, List.length_append, List.length_cons, appendString_eq_cons]
    omega

/-- An encoded map is at least as long as the number of its entries. -/
theorem encodeMap_length (m : GoMap) : (m.getD []).length ≤ (encodeMap m).length := by
  cases m with
  | none => simp [encodeMap]
  | some kvs =>
    have hlen : (sortEntries kvs).length = kvs.length := List.length_insertionSort _ _
    have := encodeEntries_length (sortEntries kvs) true
    simp only [encodeMap, List.length_cons, List.length_append, Option.getD_some]
    omega

/-- The JSON names of the fields of `Event` are left as they are by the coercion. -/
theorem coerceUTF8_names :
    coerceUTF8 (lit "time") = lit "time" ∧ coerceUTF8 (lit "host") = lit "host" ∧
    coerceUTF8 (lit "source") = lit "source" ∧
    coerceUTF8 (lit "sourcetype") = lit "sourcetype" ∧
    coerceUTF8 (lit "index") = lit "index" ∧ coerceUTF8 (lit "event") = lit "event" := by
  decide

/-- An encoded `Event` is decoded to the JSON value that stands for it. -/
theorem parseValue_event (v : Event) (F : Nat) (tail : List Nat)
    (hF : (v.Event.getD []).length + 9 ≤ F) :
    parseValue F (encodeEvent v ++ tail) = some (jsonOfEvent v, tail) := by
  obtain ⟨G, rfl⟩ : ∃ G, F = G + 7 := ⟨F - 7, by omega⟩
  obtain ⟨n1, n2, n3, n4, n5, n6⟩ := coerceUTF8_names
  have h6 := parseMembers_last G (lit "event") (encodeMap v.Event ++ 125 :: tail) tail _
    (parseValue_map v.Event G (125 :: tail) (by omega))
  have h5 := parseMembers_more (G + 1) (lit "index") _ _ tail _ _
    (parseValue_string G v.Index (44 :: _)) h6
  have h4 := parseMembers_more (G + 2) (lit "sourcetype") _ _ tail _ _
    (parseValue_string (G + 1) v.SourceType (44 :: _)) h5
  have h3 := parseMembers_more (G + 3) (lit "source") _ _ tail _ _
    (parseValue_string (G + 2) v.Source (44 :: _)) h4
  have h2 := parseMembers_more (G + 4) (lit "host") _ _ tail _ _
    (parseValue_string (G + 3) v.Host (44 :: _)) h3
  have h1 := parseMembers_more (G + 5) (lit "time") _ _ tail _ _
    (parseValue_int (G + 4) v.Time 44 _ (Or.inl rfl)) h2
  rw [n1, n2, n3, n4, n5, n6] at h1
  have e : encodeEvent v ++ tail = 123 :: (appendString (lit "time") ++ 58 :: (formatInt v.Time ++
      44 :: (appendString (lit "host") ++ 58 :: (appendString v.Host ++
      44 :: (appendString (lit "source") ++ 58 :: (appendString v.Source ++
      44 :: (appendString (lit "sourcetype") ++ 58 :: (appendString v.SourceType ++
      44 :: (appendString (lit "index") ++ 58 :: (appendString v.Index ++
      44 :: (appendString (lit "event") ++ 58 :: (encodeMap v.Event ++ 125 :: tail)))))))))))) := by
    simp [encodeEvent]
  rw [e, parseValue_step, skipSpace_cons 123 _ (by decide)]
  simp only [if_true]
  rw [appendString_eq_cons (lit "time")] at h1 ⊢
  rw [List.cons_append] at h1 ⊢
  rw [skipSpace_cons 34 _ (by decide)]
  have h34 : (34 : Nat) ≠ 125 := by decide
  simp only [h34, if_false, h1]
  rfl

/-- The length of an encoded `Event` exceeds the number of entries of its map by nine at
least. -/
theorem encodeEvent_length (v : Event) :
    (v.Event.getD []).length + 9 ≤ (encodeEvent v).length + 1 := by
  have := encodeMap_length v.Event
  simp only [encodeEvent, List.length_cons, List.length_append, appendString_eq_cons]
  omega

/-- The text `json.Marshal` writes for an `Event` is a JSON text, and it is decoded to the
JSON value that stands for the event. -/
theorem parseJSON_encodeEvent (v : Event) : parseJSON (encodeEvent v) = some (jsonOfEvent v) := by
  have h := parseValue_event v ((encodeEvent v).length + 1) [] (encodeEvent_length v)
  rw [List.append_nil] at h
  simp [parseJSON, h, skipSpace]

/-! ## Storing the decoded value into an `Event` -/

/-- String members are stored one after the other. -/
theorem bindEntries_strs (f g : GoString → GoString) (l : List (GoString × GoString)) :
    ∀ acc, bindEntries acc (l.map (fun e => (f e.1, JSON.str (g e.2))))
      = some (l.foldl (fun a e => mapSet a (f e.1) (g e.2)) acc) := by
  induction l with
  | nil => intro acc; rfl
  | cons e l ih =>
    intro acc
    simp only [List.map_cons, List.foldl_cons, bindEntries]
    exact ih _

/-- Assigning a key the map does not hold appends the entry. -/
theorem mapSet_new (m : List (GoString × GoString)) (k v : GoString)
    (h : k ∉ m.map Prod.fst) : mapSet m k v = m ++ [(k, v)] := by
  unfold mapSet
  have : m.any (fun kv => decide (kv.1 = k)) = false := by
    rw [List.any_eq_false]
    intro kv hkv
    simp only [decide_eq_true_eq]
    intro hk
    exact h (by rw [← hk]; exact List.mem_map_of_mem _ hkv)
  simp [this]

/-- Storing entries with pairwise distinct new keys appends them in order. -/
theorem foldl_mapSet_nodup (l : List (GoString × GoString)) :
    ∀ acc, ((acc ++ l).map Prod.fst).Nodup →
      l.foldl (fun a e => mapSet a e.1 e.2) acc = acc ++ l := by
  induction l with
  | nil => intro acc _; simp
  | cons e l ih =>
    intro acc hnd
    have hnew : e.1 ∉ acc.map Prod.fst := by
      simp only [List.map_append, List.map_cons] at hnd
      have := (List.nodup_append.1 hnd).2.2
      intro hmem
      exact this hmem (List.mem_cons_self _ _)
    simp only [List.foldl_cons]
    rw [mapSet_new acc e.1 e.2 hnew]
    have : acc ++ [(e.1, e.2)] ++ l = acc ++ e :: l := by simp
    rw [ih _ (by rw [this]; exact hnd), this]

/-- Decoding the text of an encoded `Event` whose time is an `int64`: every string comes
back coerced to well-formed UTF-8, the entries of the map are stored in key order. -/
theorem Unmarshal_encodeEvent (v : Event) (hlo : -9223372036854775808 ≤ v.Time)
    (hhi : v.Time ≤ 9223372036854775807) :
    Unmarshal (encodeEvent v) = some
      { Time := v.Time
        Host := coerceUTF8 v.Host
        Source := coerceUTF8 v.Source
        SourceType := coerceUTF8 v.SourceType
        Index := coerceUTF8 v.Index
        Event := v.Event.map (fun kvs => (sortEntries kvs).foldl
          (fun a e => mapSet a (coerceUTF8 e.1) (coerceUTF8 e.2)) []) } := by
  have hmap : bindMap none (jsonOfMap v.Event) = some (v.Event.map (fun kvs =>
      (sortEntries kvs).foldl (fun a e => mapSet a (coerceUTF8 e.1) (coerceUTF8 e.2)) [])) := by
    cases v.Event with
    | none => rfl
    | some kvs =>
      simp only [jsonOfMap, bindMap, Option.getD_none, Option.map_some']
      rw [bindEntries_strs coerceUTF8 coerceUTF8]
      rfl
  have k1 : ¬ lit "host" = lit "time" := by decide
  have k2 : ¬ lit "source" = lit "time" := by decide
  have k3 : ¬ lit "source" = lit "host" := by decide
  have k4 : ¬ lit "sourcetype" = lit "time" := by decide
  have k5 : ¬ lit "sourcetype" = lit "host" := by decide
  have k6 : ¬ lit "sourcetype" = lit "source" := by decide
  have k7 : ¬ lit "index" = lit "time" := by decide
  have k8 : ¬ lit "index" = lit "host" := by decide
  have k9 : ¬ lit "index" = lit "source" := by decide
  have k10 : ¬ lit "index" = lit "sourcetype" := by decide
  have k11 : ¬ lit "event" = lit "time" := by decide
  have k12 : ¬ lit "event" = lit "host" := by decide
  have k13 : ¬ lit "event" = lit "source" := by decide
  have k14 : ¬ lit "event" = lit "sourcetype" := by decide
  have k15 : ¬ lit "event" = lit "index" := by decide
  unfold Unmarshal
  rw [parseJSON_encodeEvent]
  simp only [jsonOfEvent, bindFields, bindField, if_true, if_false, k1, k2, k3, k4, k5, k6, k7,
    k8, k9, k10, k11, k12, k13, k14, k15, bindInt64, bindString,
    parseInt64_formatInt v.Time hlo hhi, Option.map_some', zeroEvent, hmap]

/-- Sorting the entries of a map permutes them. -/
theorem sortEntries_perm (kvs : List (GoString × GoString)) : (sortEntries kvs).Perm kvs :=
  List.perm_insertionSort _ _

/-- The entries of a map of well-formed strings with distinct keys are stored back as
they were sorted. -/
theorem foldl_mapSet_sortEntries (kvs : List (GoString × GoString))
    (hvalid : ∀ kv ∈ kvs, ValidString kv.1 = true ∧ ValidString kv.2 = true)
    (hnd : (kvs.map Prod.fst).Nodup) :
    (sortEntries kvs).foldl (fun a e => mapSet a (coerceUTF8 e.1) (coerceUTF8 e.2)) []
      = sortEntries kvs := by
  have hperm := sortEntries_perm kvs
  have hv : ∀ kv ∈ sortEntries kvs, coerceUTF8 kv.1 = kv.1 ∧ coerceUTF8 kv.2 = kv.2 := by
    intro kv hkv
    have := hvalid kv (hperm.mem_iff.1 hkv)
    exact ⟨coerceUTF8_valid _ this.1, coerceUTF8_valid _ this.2⟩
  have hnd' : (([] ++ sortEntries kvs).map Prod.fst).Nodup := by
    rw [List.nil_append]
    exact (hperm.map Prod.fst).nodup_iff.2 hnd
  have hfold : ∀ (l : List (GoString × GoString)) (acc : List (GoString × GoString)),
      (∀ kv ∈ l, coerceUTF8 kv.1 = kv.1 ∧ coerceUTF8 kv.2 = kv.2) →
      l.foldl (fun a e => mapSet a (coerceUTF8 e.1) (coerceUTF8 e.2)) acc
        = l.foldl (fun a e => mapSet a e.1 e.2) acc := by
    intro l
    induction l with
    | nil => intro acc _; rfl
    | cons e l ih =>
      intro acc h
      have he := h e (List.mem_cons_self _ _)
      simp only [List.foldl_cons, he.1, he.2]
      exact ih _ (fun kv hkv => h kv (List.mem_cons_of_mem _ hkv))
  rw [hfold _ _ hv, foldl_mapSet_nodup _ [] hnd', List.nil_append]

/-! ## Control flow of `Log` -/

/-- Any request `Log` hands to the client is the only one, it was built from the marshalled
event by `NewRequest` and `addHeaders`, and the outcome is read off the client's answer. -/
theorem Log_of_sent (lib : Lib) (sl : HTTPCollector) (event : GoMap) (req : Request)
    (hsent : req ∈ (sl.Log lib event).sent) :
    ∃ b req0, lib.Marshal (sl.splunklog lib event) = .ok b ∧
      (NewRequest lib (lit "POST") sl.Url b).1 = some req0 ∧ req = sl.addHeaders req0 ∧
      (sl.Log lib event).sent = [req] ∧
      (sl.Log lib event).outcome =
        (match lib.Do req with
         | .error err => .returned (some err)
         | .ok res => .returned (statusError res)) := by
  unfold HTTPCollector.Log at hsent ⊢
  cases hm : lib.Marshal (sl.splunklog lib event) with
  | error e => simp [hm] at hsent
  | ok b =>
    simp only [hm] at hsent ⊢
    cases hn : (NewRequest lib (lit "POST") sl.Url b).1 with
    | none => simp [hn] at hsent
    | some req0 =>
      simp only [hn] at hsent ⊢
      cases hd : lib.Do (sl.addHeaders req0) with
      | error e =>
        simp only [hd, List.mem_singleton] at hsent ⊢
        subst hsent
        exact ⟨b, req0, rfl, hn, rfl, rfl, by simp [hd]⟩
      | ok res =>
        simp only [hd, List.mem_singleton] at hsent ⊢
        subst hsent
        exact ⟨b, req0, rfl, hn, rfl, rfl, by simp [hd]⟩

/-- What `NewRequest` returns when it succeeds. -/
theorem NewRequest_some (lib : Lib) (method url : GoString) (body : List Nat) (req0 : Request)
    (h : (NewRequest lib method url body).1 = some req0) :
    req0 = { Method := method, URL := url, Header := [], Body := body } := by
  unfold NewRequest at h
  split at h
  · simp at h
  · split at h
    · simp at h
    · simpa using h.symm

/-- With a successful `Marshal` and an accepted URL, `Log` hands exactly one request to
the client and returns what the answer dictates. -/
theorem Log_of_ok (lib : Lib) (sl : HTTPCollector) (event : GoMap) (b : List Nat)
    (hm : lib.Marshal (sl.splunklog lib event) = .ok b) (hu : lib.ParseURL sl.Url = none) :
    sl.Log lib event =
      ⟨(match lib.Do (sl.addHeaders { Method := lit "POST", URL := sl.Url, Header := [], Body := b }) with
         | .error err => .returned (some err)
         | .ok res => .returned (statusError res)),
       [sl.addHeaders { Method := lit "POST", URL := sl.Url, Header := [], Body := b }]⟩ := by
  have hn : (NewRequest lib (lit "POST") sl.Url b).1
      = some { Method := lit "POST", URL := sl.Url, Header := [], Body := b } := by
    unfold NewRequest
    rw [if_neg (by decide)]
    simp [hu]
  unfold HTTPCollector.Log
  simp only [hm, hn]
  cases lib.Do (sl.addHeaders { Method := lit "POST", URL := sl.Url, Header := [], Body := b }) <;> rfl

/-- C1. If the request `Log` hands to the client completes with a response whose status is
not 200, `Log` returns a non-nil error whose message is exactly the response body. -/
theorem log_non200_returns_body (lib : Lib) (sl : HTTPCollector) (event : GoMap)
    (req : Request) (res : Response)
    (hsent : req ∈ (sl.Log lib event).sent) (hdo : lib.Do req = .ok res)
    (hstatus : res.StatusCode ≠ 200) :
    ∃ err, (sl.Log lib event).outcome = .returned (some err) ∧ err.Error = res.Body.data := by
  obtain ⟨b, req0, _, _, _, _, hout⟩ := Log_of_sent lib sl event req hsent
  rw [hout, hdo]
  exact ⟨errorsNew res.Body.data, by simp [statusError, hstatus, ReadFrom], rfl⟩

/-- Witness of C1: status 500 with body `internal error`. -/
theorem log_non200_returns_body_witness :
    ∃ err, (exampleCollector.Log (exampleLib (.ok internalError)) exampleFields).outcome
      = .returned (some err) ∧ err.Error = lit "internal error" :=
  log_non200_returns_body (exampleLib (.ok internalError)) exampleCollector exampleFields
    exampleRequest internalError (by decide) rfl (by decide)

/-- C2. If the request `Log` hands to the client completes with status 200, `Log` returns
the nil error, whatever the response body and whatever the field mapping. -/
theorem log_200_returns_nil (lib : Lib) (sl : HTTPCollector) (event : GoMap)
    (req : Request) (res : Response)
    (hsent : req ∈ (sl.Log lib event).sent) (hdo : lib.Do req = .ok res)
    (hstatus : res.StatusCode = 200) :
    (sl.Log lib event).outcome = .returned none := by
  obtain ⟨b, req0, _, _, _, _, hout⟩ := Log_of_sent lib sl event req hsent
  rw [hout, hdo]
  simp [statusError, hstatus]

/-- Witness of C2: status 200 with a non-empty body. -/
theorem log_200_returns_nil_witness :
    (exampleCollector.Log (exampleLib (.ok okResponse)) exampleFields).outcome
      = .returned none :=
  log_200_returns_nil (exampleLib (.ok okResponse)) exampleCollector exampleFields
    exampleRequest okResponse (by decide) rfl rfl

/-- C4. Every request `Log` hands to the client is a POST to the configured `Url`, with
exactly one `Authorization` value, `Splunk`, one space and the `Token`, and with
`Content-Type` equal to `application/json`. -/
theorem log_request_headers (lib : Lib) (sl : HTTPCollector) (event : GoMap) (req : Request)
    (hsent : req ∈ (sl.Log lib event).sent) :
    req.Method = lit "POST" ∧ req.URL = sl.Url ∧
    HeaderValues req.Header (lit "Authorization") = [lit "Splunk" ++ 32 :: sl.Token] ∧
    HeaderValues req.Header (lit "Content-Type") = [lit "application/json"] := by
  obtain ⟨b, req0, _, hn, hreq, _, _⟩ := Log_of_sent lib sl event req hsent
  have h0 := NewRequest_some lib _ _ _ _ hn
  subst h0
  subst hreq
  have hct : CanonicalMIMEHeaderKey (lit "Content-Type") = lit "Content-Type" := by decide
  have hau : CanonicalMIMEHeaderKey (lit "Authorization") = lit "Authorization" := by decide
  have hne : (lit "Content-Type" == lit "Authorization") = false := by decide
  have hne2 : (lit "Authorization" == lit "Content-Type") = false := by decide
  refine ⟨rfl, rfl, ?_, ?_⟩
  · simp [HTTPCollector.addHeaders, HeaderAdd, HeaderValues, hct, hau, List.lookup, hne, hne2]
    rfl
  · simp [HTTPCollector.addHeaders, HeaderAdd, HeaderValues, hct, hau, List.lookup, hne, hne2]

/-- Witness of C4: the request of the example collector. -/
theorem log_request_headers_witness :
    exampleRequest.Method = lit "POST" ∧ exampleRequest.URL = exampleCollector.Url ∧
    HeaderValues exampleRequest.Header (lit "Authorization")
      = [lit "Splunk" ++ 32 :: exampleCollector.Token] ∧
    HeaderValues exampleRequest.Header (lit "Content-Type") = [lit "application/json"] :=
  log_request_headers (exampleLib (.error connRefused)) exampleCollector exampleFields
    exampleRequest (by decide)

/-- C5 (what the code does). When `json.Marshal` succeeds and `http.NewRequest` rejects the
configured `Url`, `Log` does not return: it panics on line 61, before any request is made. -/
theorem log_panics_on_rejected_url (lib : Lib) (sl : HTTPCollector) (event : GoMap)
    (b : List Nat) (e : GoError)
    (hm : lib.Marshal (sl.splunklog lib event) = .ok b) (hu : lib.ParseURL sl.Url = some e) :
    sl.Log lib event = ⟨.panicked, []⟩ := by
  have hn : (NewRequest lib (lit "POST") sl.Url b).1 = none := by
    unfold NewRequest
    rw [if_neg (by decide)]
    simp [hu]
  unfold HTTPCollector.Log
  simp only [hm, hn]

/-- Witness of C5: the URL `://bad`. -/
theorem log_panics_on_rejected_url_witness :
    badUrlCollector.Log (exampleLib (.error connRefused)) exampleFields = ⟨.panicked, []⟩ :=
  log_panics_on_rejected_url (exampleLib (.error connRefused)) badUrlCollector exampleFields
    _ _ rfl rfl

/-- C6. If the request `Log` hands to the client fails with an error, `Log` returns that
very error, and that request is the only one it made. -/
theorem log_transport_error (lib : Lib) (sl : HTTPCollector) (event : GoMap)
    (req : Request) (e : GoError)
    (hsent : req ∈ (sl.Log lib event).sent) (hdo : lib.Do req = .error e) :
    (sl.Log lib event).outcome = .returned (some e) ∧ (sl.Log lib event).sent = [req] := by
  obtain ⟨b, req0, _, _, _, hs, hout⟩ := Log_of_sent lib sl event req hsent
  rw [hout, hdo]
  exact ⟨rfl, hs⟩

/-- Witness of C6: the connection is refused. -/
theorem log_transport_error_witness :
    (exampleCollector.Log (exampleLib (.error connRefused)) exampleFields).outcome
      = .returned (some connRefused) ∧
    (exampleCollector.Log (exampleLib (.error connRefused)) exampleFields).sent
      = [exampleRequest] :=
  log_transport_error (exampleLib (.error connRefused)) exampleCollector exampleFields
    exampleRequest connRefused (by decide) rfl

/-- C8. The model `Marshal` of `json.Marshal` never reports an error on an `Event` and
writes a well-formed JSON text; and under any behaviour of the libraries in which
`json.Marshal` does report an error, `Log` returns that error and hands no request to the
client. -/
theorem log_marshal_error (v : Event) :
    (∃ b, Marshal v = .ok b ∧ parseJSON b = some (jsonOfEvent v)) ∧
    ∀ (lib : Lib) (sl : HTTPCollector) (event : GoMap) (err : GoError),
      lib.Marshal (sl.splunklog lib event) = .error err →
      sl.Log lib event = ⟨.returned (some err), []⟩ := by
  refine ⟨⟨encodeEvent v, rfl, parseJSON_encodeEvent v⟩, ?_⟩
  intro lib sl event err h
  unfold HTTPCollector.Log
  simp only [h]

/-- Witness of C8: a library whose `json.Marshal` fails. -/
theorem log_marshal_error_witness :
    exampleCollector.Log failingMarshalLib exampleFields
      = ⟨.returned (some (.external "encoding/json" (lit "json: unsupported value"))), []⟩ :=
  (log_marshal_error zeroEvent).2 failingMarshalLib exampleCollector exampleFields _ rfl

/-! ## The request body -/

/-- The members of the JSON value that stands for an `Event`. -/
theorem jsonOfEvent_members (v : Event) :
    (jsonOfEvent v).keys = eventKeys ∧
    (jsonOfEvent v).member (lit "time") = some (.num (formatInt v.Time)) ∧
    (jsonOfEvent v).member (lit "host") = some (.str (coerceUTF8 v.Host)) ∧
    (jsonOfEvent v).member (lit "source") = some (.str (coerceUTF8 v.Source)) ∧
    (jsonOfEvent v).member (lit "sourcetype") = some (.str (coerceUTF8 v.SourceType)) ∧
    (jsonOfEvent v).member (lit "index") = some (.str (coerceUTF8 v.Index)) ∧
    (jsonOfEvent v).member (lit "event") = some (jsonOfMap v.Event) := by
  have k1 : (lit "host" == lit "time") = false := by decide
  have k2 : (lit "source" == lit "time") = false := by decide
  have k3 : (lit "source" == lit "host") = false := by decide
  have k4 : (lit "sourcetype" == lit "time") = false := by decide
  have k5 : (lit "sourcetype" == lit "host") = false := by decide
  have k6 : (lit "sourcetype" == lit "source") = false := by decide
  have k7 : (lit "index" == lit "time") = false := by decide
  have k8 : (lit "index" == lit "host") = false := by decide
  have k9 : (lit "index" == lit "source") = false := by decide
  have k10 : (lit "index" == lit "sourcetype") = false := by decide
  have k11 : (lit "event" == lit "time") = false := by decide
  have k12 : (lit "event" == lit "host") = false := by decide
  have k13 : (lit "event" == lit "source") = false := by decide
  have k14 : (lit "event" == lit "sourcetype") = false := by decide
  have k15 : (lit "event" == lit "index") = false := by decide
  refine ⟨rfl, ?_, ?_, ?_, ?_, ?_, ?_⟩ <;>
    simp [jsonOfEvent, JSON.member, List.lookup, k1, k2, k3, k4, k5, k6, k7, k8, k9, k10, k11,
      k12, k13, k14, k15]

/-- Under `json.Marshal` and an accepted URL, the one request `Log` makes carries the
encoding of the event it built. -/
theorem Log_body (lib : Lib) (sl : HTTPCollector) (event : GoMap)
    (hM : lib.Marshal = Marshal) (hU : lib.ParseURL sl.Url = none) :
    ∃ req, (sl.Log lib event).sent = [req] ∧
      req.Body = encodeEvent (sl.splunklog lib event) := by
  have hm : lib.Marshal (sl.splunklog lib event) = .ok (encodeEvent (sl.splunklog lib event)) := by
    rw [hM]
    rfl
  have h := Log_of_ok lib sl event _ hm hU
  exact ⟨_, by rw [h], rfl⟩

/-- The JSON value of a map of well-formed strings holds that map. -/
theorem jsonOfMap_holds (m : GoMap) (hv : m.Valid) : (jsonOfMap m).HoldsMap m := by
  cases m with
  | none => trivial
  | some kvs =>
    simp only [jsonOfMap, JSON.HoldsMap]
    have hperm := sortEntries_perm kvs
    have hv' : ∀ kv ∈ sortEntries kvs,
        (coerceUTF8 kv.1, JSON.str (coerceUTF8 kv.2)) = (kv.1, JSON.str kv.2) := by
      intro kv hkv
      have := hv kv (hperm.mem_iff.1 hkv)
      rw [coerceUTF8_valid _ this.1, coerceUTF8_valid _ this.2]
    rw [List.map_congr_left hv']
    exact hperm.map _

/-- C3 (amended). When the host name, `Source`, `SourceType`, `Index` and every key and
value of the field mapping are well-formed UTF-8, the body of the request `Log` makes is a
JSON object with exactly the six members time, host, source, sourcetype, index and event;
time is the decimal literal of the clock reading, host, source, sourcetype and index are
the host name and the collector's strings, and event holds the supplied mapping. -/
theorem log_body_six_fields (lib : Lib) (sl : HTTPCollector) (event : GoMap)
    (hM : lib.Marshal = Marshal) (hU : lib.ParseURL sl.Url = none)
    (hHost : ValidString lib.Hostname.1 = true) (hSource : ValidString sl.Source = true)
    (hType : ValidString sl.SourceType = true) (hIndex : ValidString sl.Index = true)
    (hEvent : event.Valid) :
    ∃ req j, (sl.Log lib event).sent = [req] ∧ parseJSON req.Body = some j ∧
      j.keys = eventKeys ∧
      j.member (lit "time") = some (.num (formatInt lib.Now)) ∧
      j.member (lit "host") = some (.str lib.Hostname.1) ∧
      j.member (lit "source") = some (.str sl.Source) ∧
      j.member (lit "sourcetype") = some (.str sl.SourceType) ∧
      j.member (lit "index") = some (.str sl.Index) ∧
      ∃ je, j.member (lit "event") = some je ∧ je.HoldsMap event := by
  obtain ⟨req, hsent, hbody⟩ := Log_body lib sl event hM hU
  obtain ⟨h0, h1, h2, h3, h4, h5, h6⟩ := jsonOfEvent_members (sl.splunklog lib event)
  refine ⟨req, jsonOfEvent (sl.splunklog lib event), hsent, ?_, h0, h1, ?_, ?_, ?_, ?_, ?_⟩
  · rw [hbody]
    exact parseJSON_encodeEvent _
  · rw [h2]
    exact congrArg (fun x => some (JSON.str x)) (coerceUTF8_valid _ hHost)
  · rw [h3]
    exact congrArg (fun x => some (JSON.str x)) (coerceUTF8_valid _ hSource)
  · rw [h4]
    exact congrArg (fun x => some (JSON.str x)) (coerceUTF8_valid _ hType)
  · rw [h5]
    exact congrArg (fun x => some (JSON.str x)) (coerceUTF8_valid _ hIndex)
  · exact ⟨_, h6, jsonOfMap_holds event hEvent⟩

/-- Witness of C3: the example collector and the example mapping. -/
theorem log_body_six_fields_witness :
    ∃ req j, (exampleCollector.Log (exampleLib (.ok okResponse)) exampleFields).sent = [req] ∧
      parseJSON req.Body = some j ∧ j.keys = eventKeys ∧
      j.member (lit "time") = some (.num (formatInt 1700000000)) ∧
      j.member (lit "host") = some (.str (lit "web-1")) ∧
      j.member (lit "source") = some (.str (lit "app")) ∧
      j.member (lit "sourcetype") = some (.str (lit "json")) ∧
      j.member (lit "index") = some (.str (lit "main")) ∧
      ∃ je, j.member (lit "event") = some je ∧ je.HoldsMap exampleFields :=
  log_body_six_fields (exampleLib (.ok okResponse)) exampleCollector exampleFields rfl rfl
    (by decide) (by decide) (by decide) (by decide) (by decide)

/-- Counterexample to C3 as stated: with `Source` the single byte 0xFF, the source member
of the request body is not the collector's `Source` (it is U+FFFD). -/
theorem invalid_source_not_in_body :
    ¬ ∃ req j, (invalidSourceCollector.Log (exampleLib (.ok okResponse)) exampleFields).sent
        = [req] ∧ parseJSON req.Body = some j ∧
      j.member (lit "source") = some (.str invalidSourceCollector.Source) := by
  rintro ⟨req, j, hsent, hparse, hmem⟩
  obtain ⟨req', hsent', hbody⟩ :=
    Log_body (exampleLib (.ok okResponse)) invalidSourceCollector exampleFields rfl rfl
  rw [hsent'] at hsent
  simp only [List.cons.injEq, and_true] at hsent
  subst hsent
  rw [hbody, parseJSON_encodeEvent] at hparse
  simp only [Option.some.injEq] at hparse
  subst hparse
  rw [(jsonOfEvent_members _).2.2.2.1] at hmem
  simp only [Option.some.injEq, JSON.str.injEq] at hmem
  revert hmem
  decide

/-- C7 (amended). For an `Event` whose time is an `int64`, whose strings, keys and values
are well-formed UTF-8 and whose mapping has pairwise distinct keys, `Marshal` succeeds and
decoding its output into a fresh `Event` gives the same time, the same four strings and a
mapping with the same entries. -/
theorem marshal_unmarshal_roundtrip (v : Event)
    (hlo : -9223372036854775808 ≤ v.Time) (hhi : v.Time ≤ 9223372036854775807)
    (hHost : ValidString v.Host = true) (hSource : ValidString v.Source = true)
    (hType : ValidString v.SourceType = true) (hIndex : ValidString v.Index = true)
    (hEvent : v.Event.Valid) (hWF : v.Event.WF) :
    ∃ b v', Marshal v = .ok b ∧ Unmarshal b = some v' ∧
      v'.Time = v.Time ∧ v'.Host = v.Host ∧ v'.Source = v.Source ∧
      v'.SourceType = v.SourceType ∧ v'.Index = v.Index ∧ GoMap.Same v'.Event v.Event := by
  refine ⟨encodeEvent v, _, rfl, Unmarshal_encodeEvent v hlo hhi, rfl,
    coerceUTF8_valid _ hHost, coerceUTF8_valid _ hSource, coerceUTF8_valid _ hType,
    coerceUTF8_valid _ hIndex, ?_⟩
  cases hm : v.Event with
  | none => trivial
  | some kvs =>
    rw [hm] at hEvent hWF
    simp only [Option.map_some', GoMap.Same]
    rw [foldl_mapSet_sortEntries kvs hEvent hWF]
    exact sortEntries_perm kvs

/-- Witness of C7: the example event. -/
theorem marshal_unmarshal_roundtrip_witness :
    ∃ b v', Marshal exampleEvent = .ok b ∧ Unmarshal b = some v' ∧
      v'.Time = exampleEvent.Time ∧ v'.Host = exampleEvent.Host ∧
      v'.Source = exampleEvent.Source ∧ v'.SourceType = exampleEvent.SourceType ∧
      v'.Index = exampleEvent.Index ∧ GoMap.Same v'.Event exampleEvent.Event :=
  marshal_unmarshal_roundtrip exampleEvent (by decide) (by decide) (by decide) (by decide)
    (by decide) (by decide) (by decide) (by decide)

/-- Counterexample to C7 as stated: the `Host` consisting of the byte 0xFF does not come
back (U+FFFD comes back in its place). -/
theorem invalid_host_not_restored :
    ¬ ∃ b v', Marshal invalidHostEvent = .ok b ∧ Unmarshal b = some v' ∧
      v'.Host = invalidHostEvent.Host := by
  rintro ⟨b, v', hm, hu, hh⟩
  have hb : b = encodeEvent invalidHostEvent := by
    simp only [Marshal, Except.ok.injEq] at hm
    exact hm.symm
  subst hb
  rw [Unmarshal_encodeEvent invalidHostEvent (by decide) (by decide)] at hu
  simp only [Option.some.injEq] at hu
  subst hu
  revert hh
  decide

/-- C10. Under `json.Marshal` and an accepted URL, the body of the request `Log` makes
for the nil mapping ends with the event key followed by `null` and parses to a JSON object
with the six members whose event member is `null`; for the empty non-nil mapping it ends
with the event key followed by an empty pair of braces and the event member is the empty
object. -/
theorem log_body_nil_and_empty (lib : Lib) (sl : HTTPCollector)
    (hM : lib.Marshal = Marshal) (hU : lib.ParseURL sl.Url = none) :
    (∃ req j pre, (sl.Log lib none).sent = [req] ∧
      req.Body = pre ++ (appendString (lit "event") ++ 58 :: (lit "null" ++ [125])) ∧
      parseJSON req.Body = some j ∧
      j.keys = eventKeys ∧ j.member (lit "event") = some .null) ∧
    (∃ req j pre, (sl.Log lib (some [])).sent = [req] ∧
      req.Body = pre ++ (appendString (lit "event") ++ 58 :: [123, 125, 125]) ∧
      parseJSON req.Body = some j ∧
      j.keys = eventKeys ∧ j.member (lit "event") = some (.obj [])) := by
  constructor
  · obtain ⟨req, hsent, hbody⟩ := Log_body lib sl none hM hU
    obtain ⟨h0, _, _, _, _, _, h6⟩ := jsonOfEvent_members (sl.splunklog lib none)
    refine ⟨req, _, ?_, hsent, ?_, ?_, h0, h6⟩
    · exact 123 :: (appendString (lit "time") ++ 58 :: formatInt (sl.splunklog lib none).Time ++
        44 :: (appendString (lit "host") ++ 58 :: appendString (sl.splunklog lib none).Host ++
        44 :: (appendString (lit "source") ++ 58 :: appendString (sl.splunklog lib none).Source ++
        44 :: (appendString (lit "sourcetype") ++
          58 :: appendString (sl.splunklog lib none).SourceType ++
        44 :: (appendString (lit "index") ++ 58 :: appendString (sl.splunklog lib none).Index ++
        [44])))))
    · rw [hbody]
      simp [encodeEvent, encodeMap, HTTPCollector.splunklog]
    · rw [hbody]
      exact parseJSON_encodeEvent _
  · obtain ⟨req, hsent, hbody⟩ := Log_body lib sl (some []) hM hU
    obtain ⟨h0, _, _, _, _, _, h6⟩ := jsonOfEvent_members (sl.splunklog lib (some []))
    refine ⟨req, _, ?_, hsent, ?_, ?_, h0, h6⟩
    · exact 123 :: (appendString (lit "time") ++ 58 :: formatInt (sl.splunklog lib none).Time ++
        44 :: (appendString (lit "host") ++ 58 :: appendString (sl.splunklog lib none).Host ++
        44 :: (appendString (lit "source") ++ 58 :: appendString (sl.splunklog lib none).Source ++
        44 :: (appendString (lit "sourcetype") ++
          58 :: appendString (sl.splunklog lib none).SourceType ++
        44 :: (appendString (lit "index") ++ 58 :: appendString (sl.splunklog lib none).Index ++
        [44])))))
    · rw [hbody]
      simp [encodeEvent, encodeMap, HTTPCollector.splunklog, sortEntries, encodeEntries]
    · rw [hbody]
      exact parseJSON_encodeEvent _

/-- Witness of C10: the example collector. -/
theorem log_body_nil_and_empty_witness :
    (∃ req j pre, (exampleCollector.Log (exampleLib (.ok okResponse)) none).sent = [req] ∧
      req.Body = pre ++ (appendString (lit "event") ++ 58 :: (lit "null" ++ [125])) ∧
      parseJSON req.Body = some j ∧ j.keys = eventKeys ∧
      j.member (lit "event") = some .null) ∧
    (∃ req j pre, (exampleCollector.Log (exampleLib (.ok okResponse)) (some [])).sent = [req] ∧
      req.Body = pre ++ (appendString (lit "event") ++ 58 :: [123, 125, 125]) ∧
      parseJSON req.Body = some j ∧ j.keys = eventKeys ∧
      j.member (lit "event") = some (.obj [])) :=
  log_body_nil_and_empty (exampleLib (.ok okResponse)) exampleCollector rfl rfl

/-- C9. If `os.Hostname` fails (empty name, non-nil error), `Log` does not stop: the
`Event` it builds is the one with the empty host, and from there the call runs as it
always does. A `json.Marshal` error on that event is returned with no request made; a URL
that `http.NewRequest` rejects makes line 61 panic; otherwise exactly one request is handed
to the client, its body is what `json.Marshal` gave for the empty-host event, and the
result is the client's error, or nil on status 200, or the response body as an error.
Under the model `Marshal` that body is a JSON object whose host member is the empty
string. The result is the same as when the lookup succeeds with the empty name. -/
theorem log_ignores_hostname_error (lib : Lib) (sl : HTTPCollector) (event : GoMap)
    (e : GoError) (h : lib.Hostname = ([], some e)) :
    sl.splunklog lib event = sl.emptyHostEvent lib event ∧
    sl.Log lib event = sl.Log { lib with Hostname := ([], none) } event ∧
    (∀ err, lib.Marshal (sl.emptyHostEvent lib event) = .error err →
      sl.Log lib event = ⟨.returned (some err), []⟩) ∧
    (∀ b err, lib.Marshal (sl.emptyHostEvent lib event) = .ok b →
      lib.ParseURL sl.Url = some err → sl.Log lib event = ⟨.panicked, []⟩) ∧
    (∀ b, lib.Marshal (sl.emptyHostEvent lib event) = .ok b → lib.ParseURL sl.Url = none →
      sl.Log lib event =
        ⟨(match lib.Do (sl.addHeaders { Method := lit "POST", URL := sl.Url, Header := [], Body := b }) with
           | .error err => .returned (some err)
           | .ok res => .returned (statusError res)),
         [sl.addHeaders { Method := lit "POST", URL := sl.Url, Header := [], Body := b }]⟩) ∧
    (lib.Marshal = Marshal → lib.ParseURL sl.Url = none →
      ∃ req j, (sl.Log lib event).sent = [req] ∧
        req.Body = encodeEvent (sl.emptyHostEvent lib event) ∧
        parseJSON req.Body = some j ∧ j.keys = eventKeys ∧
        j.member (lit "host") = some (.str [])) := by
  have hs : sl.splunklog lib event = sl.emptyHostEvent lib event := by
    simp [HTTPCollector.splunklog, HTTPCollector.emptyHostEvent, h]
  refine ⟨hs, ?_, ?_, ?_, ?_, ?_⟩
  · have hs2 : sl.splunklog lib event
        = sl.splunklog { lib with Hostname := ([], none) } event := by
      simp [HTTPCollector.splunklog, h]
    unfold HTTPCollector.Log
    rw [← hs2]
    rfl
  · intro err hm
    rw [← hs] at hm
    unfold HTTPCollector.Log
    simp only [hm]
  · intro b err hm hu
    rw [← hs] at hm
    have hn : (NewRequest lib (lit "POST") sl.Url b).1 = none := by
      unfold NewRequest
      rw [if_neg (by decide)]
      simp [hu]
    unfold HTTPCollector.Log
    simp only [hm, hn]
  · intro b hm hu
    rw [← hs] at hm
    exact Log_of_ok lib sl event b hm hu
  · intro hM hU
    obtain ⟨req, hsent, hbody⟩ := Log_body lib sl event hM hU
    rw [hs] at hbody
    obtain ⟨h0, _, h2, _⟩ := jsonOfEvent_members (sl.emptyHostEvent lib event)
    refine ⟨req, jsonOfEvent (sl.emptyHostEvent lib event), hsent, hbody, ?_, h0, ?_⟩
    · rw [hbody]
      exact parseJSON_encodeEvent _
    · rw [h2]
      rfl

/-- Witness of C9: the lookup fails and the endpoint answers 200; the one request carries
the event with the empty host and `Log` returns nil. -/
theorem log_ignores_hostname_error_witness :
    noHostnameLib.Hostname = ([], some (.external "os" (lit "hostname: not found"))) ∧
    exampleCollector.Log noHostnameLib exampleFields = ⟨.returned none, [emptyHostRequest]⟩ :=
  ⟨rfl, (log_ignores_hostname_error noHostnameLib exampleCollector exampleFields
    (.external "os" (lit "hostname: not found")) rfl).2.2.2.2.1
    (encodeEvent (exampleCollector.emptyHostEvent noHostnameLib exampleFields)) rfl rfl⟩

end Splunk
